import Mathlib

/-!
Shallow embedding of the `rust-ledger-utils` core (FX rate store, balance
aggregation, foreign-currency synthesis, monthly report bucketing) and
verification of spec claims against it.

Modelling conventions:
* `rust_decimal::Decimal` quantities are modelled as exact rationals (`ℚ`).
  Addition, subtraction, multiplication and comparison of `Decimal` are exact,
  matching `ℚ`; the one idealisation is division (used only when storing the
  reciprocal rate in `Prices.add_prices`), which `rust_decimal` rounds to its
  maximum precision while `ℚ` keeps exact.  No claim below depends on the
  rounded digits of a quotient.
* `HashMap` is modelled as an association list (`List (key × value)`);
  the entry API `entry(k).and_modify(f).or_insert(v)` becomes `alAdjoin`.
  Iteration order of a Rust `HashMap` is unspecified; the model iterates in
  list order.
* `BTreeMap<NaiveDate, Decimal>` is modelled as a date-sorted association
  list; sortedness appears as a `List.Pairwise` hypothesis where needed and
  is preserved by the insertion function `btInsert`.
* Fallible code (`Result`) becomes `Except`; `panic!` / `unwrap` on `None`
  becomes an `Option` result where `none` marks the panic.
-/

/-! ## Association list helpers (model of HashMap) -/

/-- Lookup of the first entry with the given key. -/
def alGet {K V : Type} [DecidableEq K] (l : List (K × V)) (k : K) : Option V :=
  match l with
  | [] => none
  | (k', v) :: rest => if k' = k then some v else alGet rest k

/-- Model of `map.entry(k).and_modify(f).or_insert(dflt)`: modify the entry in
place when the key is present, otherwise append a new entry holding `dflt`. -/
def alAdjoin {K V : Type} [DecidableEq K] (f : V → V) (dflt : V)
    (l : List (K × V)) (k : K) : List (K × V) :=
  match l with
  | [] => [(k, dflt)]
  | (k', v) :: rest =>
    if k' = k then (k', f v) :: rest else (k', v) :: alAdjoin f dflt rest k

/-- Keys of an association list. -/
def alKeys {K V : Type} (l : List (K × V)) : List K := l.map Prod.fst

/-- The merge loop shared by the `AddAssign` / `SubAssign` implementations:
fold the right operand's entries into the left operand with
`entry(k).and_modify(g old new).or_insert(new)`. -/
def alMergeWith {K V : Type} [DecidableEq K] (g : V → V → V)
    (a bs : List (K × V)) : List (K × V) :=
  bs.foldl (fun acc e => alAdjoin (fun v => g v e.2) e.2 acc e.1) a

/-! ## Basic data model: dates, decimal quantities, commodities, amounts -/

/-- Model of `chrono::NaiveDate`: a calendar date ordered lexicographically
by year, month, day.  `chrono` guarantees `1 ≤ month ≤ 12`; theorems that
need this take it as a hypothesis. -/
structure Date where
  year : ℤ
  month : ℤ
  day : ℤ
deriving DecidableEq

/-- Lexicographic key of a date. -/
def Date.lexKey (d : Date) : Lex (ℤ × Lex (ℤ × ℤ)) :=
  toLex (d.year, toLex (d.month, d.day))

/-- `lexKey` is injective, so the lexicographic order lifts to dates. -/
def Date.lexKey_injective : Function.Injective Date.lexKey := by
  intro a b h
  obtain ⟨ay, am, ad⟩ := a
  obtain ⟨by', bm, bd⟩ := b
  simp only [Date.lexKey, toLex_inj, Prod.mk.injEq] at h
  obtain ⟨h1, h2, h3⟩ := h
  simp [h1, h2, h3]

instance : LinearOrder Date := LinearOrder.lift' Date.lexKey Date.lexKey_injective

/-- `rust_decimal::Decimal` quantities, modelled as exact rationals. -/
abbrev Decimal := ℚ

/-- Rounding of a rational to an integer with ties away from zero;
the integer-level core of `RoundingStrategy::MidpointAwayFromZero`. -/
def roundHalfAwayFromZero (x : ℚ) : ℤ :=
  if 0 ≤ x then ⌊x + 1 / 2⌋ else -⌊-x + 1 / 2⌋

/-- Model of `Decimal::round_dp_with_strategy(dp, MidpointAwayFromZero)`:
round to `dp` decimal places, ties away from zero. -/
def Decimal.round_dp (x : ℚ) (dp : ℕ) : ℚ :=
  (roundHalfAwayFromZero (x * 10 ^ dp) : ℚ) / 10 ^ dp

/-- `ledger_parser::CommodityPosition` (display hint; left or right of the
quantity).  Display-only, but carried because the synthesis pass writes a
concrete value into the amounts it creates. -/
inductive CommodityPosition where
  | left
  | right
deriving DecidableEq

/-- `ledger_parser::Commodity`. -/
structure Commodity where
  name : String
  position : CommodityPosition
deriving DecidableEq

/-- `ledger_parser::Amount`: a decimal quantity plus commodity. -/
structure Amount where
  quantity : Decimal
  commodity : Commodity
deriving DecidableEq

/-! ## FX rate store (`src/prices.rs`) -/

/-- Ordered `(source, destination)` commodity-name pair; directional. -/
structure CommoditiesPair where
  src_commodity_name : String
  dst_commodity_name : String
deriving DecidableEq

def CommoditiesPair.new (src dst : String) : CommoditiesPair := ⟨src, dst⟩

/-- `prices::PricesError`. -/
inductive PricesError where
  | NoSuchCommoditiesPair (pair : CommoditiesPair)
  | DateTooEarly (date : Date)
deriving DecidableEq

/-- `prices::RatesTable`: a `BTreeMap<NaiveDate, Decimal>`, modelled as a
date-sorted association list. -/
structure RatesTable where
  table : List (Date × Decimal)
deriving DecidableEq

def RatesTable.new : RatesTable := ⟨[]⟩

/-- The scan inside `RatesTable::get_rate`: walk the entries in ascending
date order, remember the last value whose date is `≤ date`, stop at the
first later entry. -/
def getRateLoop (date : Date) : List (Date × Decimal) → Option Decimal → Option Decimal
  | [], acc => acc
  | (k, v) :: rest, acc =>
    if k ≤ date then getRateLoop date rest (some v) else acc

/-- `RatesTable::get_rate`. -/
def RatesTable.get_rate (t : RatesTable) (date : Date) : Except PricesError Decimal :=
  match getRateLoop date t.table none with
  | some r => .ok r
  | none => .error (.DateTooEarly date)

/-- `prices::Prices`: per-pair rate tables (`HashMap` as association list). -/
structure Prices where
  rates : List (CommoditiesPair × RatesTable)
deriving DecidableEq

def Prices.empty : Prices := ⟨[]⟩

/-- `Prices::get_rates_table`. -/
def Prices.get_rates_table (p : Prices) (pair : CommoditiesPair) :
    Except PricesError RatesTable :=
  match alGet p.rates pair with
  | some t => .ok t
  | none => .error (.NoSuchCommoditiesPair pair)

/-- `Prices::get_rate`. -/
def Prices.get_rate (p : Prices) (src dst : String) (date : Date) :
    Except PricesError Decimal := do
  let t ← p.get_rates_table (CommoditiesPair.new src dst)
  t.get_rate date

/-- `Prices::convert`. -/
def Prices.convert (p : Prices) (amount : Decimal) (src dst : String)
    (date : Date) : Except PricesError Decimal := do
  let rate ← p.get_rate src dst date
  pure (amount * rate)

/-- Insert-or-overwrite into a sorted `BTreeMap` association list
(`table.entry(date).and_modify(overwrite).or_insert(rate)`). -/
def btInsert (l : List (Date × Decimal)) (date : Date) (rate : Decimal) :
    List (Date × Decimal) :=
  match l with
  | [] => [(date, rate)]
  | (k, v) :: rest =>
    if date < k then (date, rate) :: (k, v) :: rest
    else if date = k then (date, rate) :: rest
    else (k, v) :: btInsert rest date rate

/-- `Prices::add_price`. -/
def Prices.add_price (p : Prices) (src dst : String) (rate : Decimal)
    (date : Date) : Prices :=
  ⟨alAdjoin (fun t => ⟨btInsert t.table date rate⟩)
    ⟨btInsert RatesTable.new.table date rate⟩
    p.rates (CommoditiesPair.new src dst)⟩

/-- `ledger_parser::CommodityPrice`.  The Rust field is a `NaiveDateTime`;
only its date part is ever read (`price.datetime.date()`), and
transaction-implied prices are stamped at midnight, so the model keeps the
date directly. -/
structure CommodityPrice where
  datetime : Date
  commodity_name : String
  amount : Amount
deriving DecidableEq

/-- `Prices::add_prices`: for every price point store the forward rate and
its reciprocal, each in its own directional pair's table. -/
def Prices.add_prices (p : Prices) (prices : List CommodityPrice) : Prices :=
  prices.foldl
    (fun acc price =>
      (acc.add_price price.commodity_name price.amount.commodity.name
          price.amount.quantity price.datetime).add_price
        price.amount.commodity.name price.commodity_name
        (1 / price.amount.quantity) price.datetime)
    p

/-! ## Balance of a single account (`src/account_balance.rs`) -/

/-- `account_balance::AccountBalance`: commodity name → amount
(`HashMap` as association list). -/
structure AccountBalance where
  amounts : List (String × Amount)
deriving DecidableEq

def AccountBalance.new : AccountBalance := ⟨[]⟩

/-- `AccountBalance::is_zero`: every held amount has quantity exactly zero
(vacuously true of the empty mapping). -/
def AccountBalance.is_zero (ab : AccountBalance) : Bool :=
  ab.amounts.all (fun e => e.2.quantity = 0)

/-- `AccountBalance::remove_empties`: drop every commodity entry whose
quantity is exactly zero. -/
def AccountBalance.remove_empties (ab : AccountBalance) : AccountBalance :=
  ⟨ab.amounts.filter (fun e => e.2.quantity ≠ 0)⟩

/-- `impl AddAssign<&AccountBalance> for AccountBalance`: per-commodity
quantity addition (inserting the right operand's amount for fresh
commodities), then `remove_empties`. -/
def AccountBalance.add (self other : AccountBalance) : AccountBalance :=
  AccountBalance.remove_empties
    ⟨alMergeWith (fun a b => { a with quantity := a.quantity + b.quantity })
      self.amounts other.amounts⟩

/-- `impl SubAssign<&AccountBalance> for AccountBalance`: per-commodity
quantity subtraction via `and_modify`, but `or_insert_with` inserts the
right operand's amount unchanged (not negated) for fresh commodities,
exactly as the source does; then `remove_empties`. -/
def AccountBalance.sub (self other : AccountBalance) : AccountBalance :=
  AccountBalance.remove_empties
    ⟨alMergeWith (fun a b => { a with quantity := a.quantity - b.quantity })
      self.amounts other.amounts⟩

/-- `AccountBalance::value_in_commodity`: sum every held amount, converting
the ones whose commodity differs from the target through the rate store,
propagating the first conversion error (`?`). -/
def valueLoop (commodity_name : String) (date : Date) (prices : Prices) :
    List Amount → Decimal → Except PricesError Decimal
  | [], acc => .ok acc
  | amount :: rest, acc =>
    if amount.commodity.name = commodity_name then
      valueLoop commodity_name date prices rest (acc + amount.quantity)
    else
      match prices.convert amount.quantity amount.commodity.name
          commodity_name date with
      | .ok v => valueLoop commodity_name date prices rest (acc + v)
      | .error e => .error e

def AccountBalance.value_in_commodity (ab : AccountBalance)
    (commodity_name : String) (date : Date) (prices : Prices) :
    Except PricesError Decimal :=
  valueLoop commodity_name date prices (ab.amounts.map Prod.snd) 0

/-- `AccountBalance::value_in_commodity_rounded`: round the value on
success; on a conversion error the Rust code `panic!`s instead of
returning, modelled by `none`. -/
def AccountBalance.value_in_commodity_rounded (ab : AccountBalance)
    (commodity_name : String) (decimal_points : ℕ) (date : Date)
    (prices : Prices) : Option Decimal :=
  match ab.value_in_commodity commodity_name date prices with
  | .ok v => some (Decimal.round_dp v decimal_points)
  | .error _ => none

/-! ## Balance of many accounts (`src/balance.rs`) -/

/-- Simplified-ledger posting (`simplified_ledger::Posting`): account path
plus a mandatory amount.  Metadata fields (dates, reality, status, comment,
tags) are omitted: none of the embedded operations reads them. -/
structure SPosting where
  account : String
  amount : Amount
deriving DecidableEq

/-- Simplified-ledger transaction (`simplified_ledger::Transaction`):
date plus postings.  Unread metadata fields are omitted. -/
structure STransaction where
  date : Date
  postings : List SPosting
deriving DecidableEq

/-- Simplified ledger (`simplified_ledger::Ledger`). -/
structure SLedger where
  commodity_prices : List CommodityPrice
  transactions : List STransaction
deriving DecidableEq

/-- `balance::Balance`: account name → `AccountBalance`. -/
structure Balance where
  account_balances : List (String × AccountBalance)
deriving DecidableEq

def Balance.new : Balance := ⟨[]⟩

/-- `Balance::remove_empties`: drop every account whose `AccountBalance`
`is_zero` (all entries zero, or no entries at all). -/
def Balance.remove_empties (b : Balance) : Balance :=
  ⟨b.account_balances.filter (fun e => ¬ e.2.is_zero)⟩

/-- One posting's effect inside `Balance::update_with_transaction`:
`entry(account).or_default()`, then on that account's amounts
`entry(name).and_modify(add quantity).or_insert(amount)`.  Note: no
`AccountBalance::remove_empties` here. -/
def Balance.post (b : Balance) (p : SPosting) : Balance :=
  ⟨alAdjoin
    (fun ab => ⟨alAdjoin
      (fun a => { a with quantity := a.quantity + p.amount.quantity })
      p.amount ab.amounts p.amount.commodity.name⟩)
    ⟨alAdjoin
      (fun a => { a with quantity := a.quantity + p.amount.quantity })
      p.amount AccountBalance.new.amounts p.amount.commodity.name⟩
    b.account_balances p.account⟩

/-- `Balance::update_with_transaction`: apply every posting, then the
`Balance`-level `remove_empties` (and only that one). -/
def Balance.update_with_transaction (b : Balance) (t : STransaction) : Balance :=
  Balance.remove_empties (t.postings.foldl Balance.post b)

/-- `impl From<&Ledger> for Balance`. -/
def Balance.from_ledger (l : SLedger) : Balance :=
  l.transactions.foldl Balance.update_with_transaction Balance.new

/-- `impl AddAssign<&Balance> for Balance`: per-account `AccountBalance`
merge (inserting the right operand's balance for fresh accounts), then the
`Balance`-level `remove_empties`. -/
def Balance.add (self other : Balance) : Balance :=
  Balance.remove_empties
    ⟨alMergeWith AccountBalance.add self.account_balances other.account_balances⟩

/-- `impl SubAssign<&Balance> for Balance`: per-account `AccountBalance`
subtraction via `and_modify`, but `or_insert_with` clones the right
operand's balance unchanged for fresh accounts, exactly as the source does;
then `remove_empties`. -/
def Balance.sub (self other : Balance) : Balance :=
  Balance.remove_empties
    ⟨alMergeWith AccountBalance.sub self.account_balances other.account_balances⟩

/-! ## Foreign-currency synthesizer (`src/handle_foreign_currencies.rs`)

This module works on the parser-level ledger (`ledger_parser`), whose
postings carry an `Option`al amount. -/

/-- `ledger_parser::Reality`. -/
inductive Reality where
  | real
  | balancedVirtual
  | unbalancedVirtual
deriving DecidableEq

/-- `ledger_parser::TransactionStatus`. -/
inductive TransactionStatus where
  | cleared
  | pending
deriving DecidableEq

/-- Parser-level posting (`ledger_parser::Posting`): the fields the
synthesizer reads or writes.  The `balance` assertion field is omitted:
the synthesizer only ever sets it to `None` and never reads it. -/
structure PPosting where
  account : String
  reality : Reality
  amount : Option Amount
  status : Option TransactionStatus
  comment : Option String
deriving DecidableEq

/-- Parser-level transaction: date plus postings (the only fields the
synthesizer reads). -/
structure PTransaction where
  date : Date
  postings : List PPosting
deriving DecidableEq

/-- Parser-level ledger item (`ledger_parser::LedgerItem`); the arms other
than transactions and commodity prices are never inspected by the embedded
code and are collapsed into the price arm's complement. -/
inductive LedgerItem where
  | transaction (t : PTransaction)
  | commodityPrice (cp : CommodityPrice)
deriving DecidableEq

/-- Parser-level ledger (`ledger_parser::Ledger`). -/
structure PLedger where
  items : List LedgerItem
deriving DecidableEq

/-- A posting synthesized onto the fixed trading account. -/
def tradingPosting (amount : Amount) : PPosting :=
  { comment := some "Auto-generated"
    account := "Trading:Exchange"
    reality := .real
    status := none
    amount := some amount }

/-- Does a posting match the income/expense pass?  (`is_?_account`, amount
present, commodity differs from the main commodity.) -/
def passMatches (isAccount : String → Bool) (main : String) (p : PPosting) : Bool :=
  isAccount p.account &&
    match p.amount with
    | some a => a.commodity.name ≠ main
    | none => false

/-- The in-place rewrite loop shared verbatim by
`handle_foreign_asset_income` and `handle_foreign_asset_expenses`.
Returns the postings vector as the loop leaves it (matched prefix already
mutated in place), the accumulated `new_postings`, and the first conversion
error if any.  On error the remaining postings are untouched and the caller
drops `new_postings`, exactly as the early `?` return does in Rust. -/
def foreignPassLoop (isAccount : String → Bool) (main : String) (dp : ℕ)
    (prices : Prices) (date : Date) :
    List PPosting → (List PPosting × List PPosting × Option PricesError)
  | [] => ([], [], none)
  | p :: rest =>
    if passMatches isAccount main p then
      match p.amount with
      | some foreign_amount =>
        (match prices.convert foreign_amount.quantity
            foreign_amount.commodity.name main date with
        | .error e => (p :: rest, [], some e)
        | .ok converted =>
          let amount_main_commodity := Decimal.round_dp converted dp
          let main_currency_amount : Amount :=
            ⟨amount_main_commodity, ⟨main, .right⟩⟩
          let p' := { p with amount := some main_currency_amount }
          let (ps, news, err) :=
            foreignPassLoop isAccount main dp prices date rest
          (p' :: ps,
            tradingPosting ⟨-main_currency_amount.quantity, ⟨main, .right⟩⟩ ::
              tradingPosting foreign_amount :: news,
            err))
      | none => -- unreachable: `passMatches` requires a present amount
        let (ps, news, err) := foreignPassLoop isAccount main dp prices date rest
        (p :: ps, news, err)
    else
      let (ps, news, err) := foreignPassLoop isAccount main dp prices date rest
      (p :: ps, news, err)

/-- `handle_foreign_asset_income`: rewrite matching income postings in
place; append `new_postings` only when the whole loop succeeded (on error
the early return leaves the postings as the loop left them, the pending
appends being dropped). -/
def handle_foreign_asset_income (isIncome : String → Bool) (main : String)
    (dp : ℕ) (prices : Prices) (t : PTransaction) :
    PTransaction × Option PricesError :=
  match foreignPassLoop isIncome main dp prices t.date t.postings with
  | (ps, news, none) => ({ t with postings := ps ++ news }, none)
  | (ps, _, some e) => ({ t with postings := ps }, some e)

/-- `handle_foreign_asset_expenses`: textually identical to the income pass
with the expense predicate. -/
def handle_foreign_asset_expenses (isExpense : String → Bool) (main : String)
    (dp : ℕ) (prices : Prices) (t : PTransaction) :
    PTransaction × Option PricesError :=
  match foreignPassLoop isExpense main dp prices t.date t.postings with
  | (ps, news, none) => ({ t with postings := ps ++ news }, none)
  | (ps, _, some e) => ({ t with postings := ps }, some e)

/-- `handle_asset_exchange`: when the transaction is exactly two postings on
asset accounts holding two different commodities (both amounts present),
append the two negated amounts on the trading account. -/
def handle_asset_exchange (isAsset : String → Bool) (t : PTransaction) :
    PTransaction :=
  match t.postings with
  | [p0, p1] =>
    if isAsset p0.account && isAsset p1.account then
      match p0.amount, p1.amount with
      | some a0, some a1 =>
        if a0.commodity.name = a1.commodity.name then t
        else
          { t with postings :=
              [p0, p1,
                tradingPosting { a0 with quantity := -a0.quantity },
                tradingPosting { a1 with quantity := -a1.quantity }] }
      | _, _ => t
    else t
  | _ => t

/-- `handle_foreign_currencies`: the three ordered passes per transaction;
the first conversion error propagates immediately (`?`), leaving the
current transaction as the failing pass left it and later items
untouched. -/
def handle_foreign_currencies (isAsset isIncome isExpense : String → Bool)
    (main : String) (dp : ℕ) (prices : Prices) :
    List LedgerItem → (List LedgerItem × Option PricesError)
  | [] => ([], none)
  | .transaction t :: rest =>
    (match handle_foreign_asset_income isIncome main dp prices t with
    | (t1, some e) => (.transaction t1 :: rest, some e)
    | (t1, none) =>
      let t2 := handle_asset_exchange isAsset t1
      match handle_foreign_asset_expenses isExpense main dp prices t2 with
      | (t3, some e) => (.transaction t3 :: rest, some e)
      | (t3, none) =>
        let (rest', err) :=
          handle_foreign_currencies isAsset isIncome isExpense main dp prices rest
        (.transaction t3 :: rest', err))
  | item :: rest =>
    let (rest', err) :=
      handle_foreign_currencies isAsset isIncome isExpense main dp prices rest
    (item :: rest', err)

/-! ## Monthly report (`src/monthly_report.rs`) -/

/-- `monthly_report::MonthlyBalance`. -/
structure MonthlyBalance where
  year : ℤ
  month : ℤ
  monthly_change : Balance
  total : Balance
deriving DecidableEq

def MonthlyBalance.new (year month : ℤ) : MonthlyBalance :=
  ⟨year, month, Balance.new, Balance.new⟩

/-- `monthly_report::MonthlyReport`. -/
structure MonthlyReport where
  monthly_balances : List MonthlyBalance
deriving DecidableEq

/-- The walk inside `impl From<&Ledger> for MonthlyReport`, carried state:
current `(year, month)` (sentinel `(0, 0)`), the currently open bucket, the
running monthly delta and all-time total, and the sealed buckets so far. -/
def monthlyLoop : List STransaction → ℤ → ℤ → Option MonthlyBalance →
    Balance → Balance → List MonthlyBalance → List MonthlyBalance
  | [], _, _, current, monthly, total, acc =>
    (match current with
     | some b => acc ++ [{ b with monthly_change := monthly, total := total }]
     | none => acc)
  | t :: rest, year, month, current, monthly, total, acc =>
    if t.date.year ≠ year ∨ t.date.month ≠ month then
      let acc' :=
        match current with
        | some b => acc ++ [{ b with monthly_change := monthly, total := total }]
        | none => acc
      monthlyLoop rest t.date.year t.date.month
        (some (MonthlyBalance.new t.date.year t.date.month))
        (Balance.update_with_transaction Balance.new t)
        (Balance.update_with_transaction total t) acc'
    else
      monthlyLoop rest year month current
        (Balance.update_with_transaction monthly t)
        (Balance.update_with_transaction total t) acc

/-- `impl From<&Ledger> for MonthlyReport`.  The Rust loop walks
`ledger.items` and touches its state only in the `LedgerItem::Transaction`
arm; the model walks that transaction subsequence directly. -/
def MonthlyReport.from_transactions (txns : List STransaction) : MonthlyReport :=
  ⟨monthlyLoop txns 0 0 none Balance.new Balance.new []⟩

/-! ## Transaction-implied prices and `Prices::load` (`src/prices.rs`) -/

/-- `get_commodity_prices`. -/
def get_commodity_prices (ledger : PLedger) : List CommodityPrice :=
  ledger.items.filterMap
    (fun item =>
      match item with
      | .commodityPrice cp => some cp
      | _ => none)

/-- The body of the transaction scan in `get_prices_from_transactions` for
one transaction: on an exactly-2-posting transaction both postings'
optional amounts are `unwrap`ped before any other check, so a missing
amount panics (`none`). -/
def impliedPrice (t : PTransaction) : Option (List CommodityPrice) :=
  if t.postings.length = 2 then
    match (t.postings.get? 0).bind PPosting.amount,
        (t.postings.get? 1).bind PPosting.amount with
    | some a0, some a1 =>
      if a0.commodity.name ≠ a1.commodity.name ∧
          a0.quantity ≠ 0 ∧ a1.quantity ≠ 0 then
        some [{ datetime := t.date
                commodity_name := a0.commodity.name
                amount := ⟨-a1.quantity / a0.quantity, a1.commodity⟩ }]
      else some []
    | _, _ => none
  else some []

/-- One step of the transaction scan (`none` = a panic already happened or
happens at this item). -/
def pricesScanStep (acc : Option (List CommodityPrice)) (item : LedgerItem) :
    Option (List CommodityPrice) :=
  match acc, item with
  | some l, .transaction t => (impliedPrice t).map (fun ps => l ++ ps)
  | some l, _ => some l
  | none, _ => none

/-- `get_prices_from_transactions`; `none` marks the `unwrap` panic. -/
def get_prices_from_transactions (ledger : PLedger) :
    Option (List CommodityPrice) :=
  ledger.items.foldl pricesScanStep (some [])

/-- `Prices::load`; `none` marks the panic propagated from the
transaction scan. -/
def Prices.load (ledger : PLedger) : Option Prices :=
  (get_prices_from_transactions ledger).map
    (fun txnPrices =>
      (Prices.empty.add_prices (get_commodity_prices ledger)).add_prices txnPrices)

/-! ## Characterisation of the rate lookup -/

/-- Ascending strict date order of a rate table (the `BTreeMap` shape). -/
def tableSorted (l : List (Date × Decimal)) : Prop :=
  l.Pairwise (fun e1 e2 => e1.1 < e2.1)

/-- The last (hence greatest-dated) entry of the table dated `≤ date`. -/
def lastEntryLE (l : List (Date × Decimal)) (date : Date) :
    Option (Date × Decimal) :=
  (l.filter (fun e => e.1 ≤ date)).getLast?

/-! ## Semantic views and invariants of balances -/

/-- The quantity stored for one commodity (`none` when the commodity is
absent from the mapping). -/
def AccountBalance.qty (ab : AccountBalance) (k : String) : Option ℚ :=
  (alGet ab.amounts k).map Amount.quantity

/-- The quantity stored for one commodity of one account. -/
def Balance.view (b : Balance) (acct k : String) : Option ℚ :=
  (alGet b.account_balances acct).bind (fun ab => ab.qty k)

/-- Distinct commodity keys (a `HashMap` guarantee). -/
def AccountBalance.nodupKeys (ab : AccountBalance) : Prop :=
  (alKeys ab.amounts).Nodup

/-- The `AccountBalance` invariant: no entry with quantity exactly zero. -/
def AccountBalance.zero_free (ab : AccountBalance) : Prop :=
  ∀ e ∈ ab.amounts, e.2.quantity ≠ 0

/-- Well-formedness of a `Balance` as produced by the documented operators:
distinct account keys, and each account's balance has distinct commodity
keys, no zero entries, and at least one entry. -/
def Balance.wf (b : Balance) : Prop :=
  (alKeys b.account_balances).Nodup ∧
    ∀ e ∈ b.account_balances,
      (alKeys e.2.amounts).Nodup ∧ e.2.zero_free ∧ e.2.amounts ≠ []

/-- Combination of two optional quantities the way the merge loop combines
presence: both present adds, one present keeps it. -/
def combineQ : Option ℚ → Option ℚ → Option ℚ
  | some p, some q => some (p + q)
  | some p, none => some p
  | none, q => q

/-- Combination realised by the `SubAssign` loop: subtract when both
present, keep the (un-negated!) right value when only it is present. -/
def subCombineQ : Option ℚ → Option ℚ → Option ℚ
  | some p, some q => some (p - q)
  | some p, none => some p
  | none, q => q

/-- Exact-zero pruning on an optional quantity. -/
def pruneQ (x : Option ℚ) : Option ℚ := if x = some 0 then none else x

/-- The rate stored in the `(src,dst)` pair's table at exactly `date`. -/
def storedRate (p : Prices) (src dst : String) (date : Date) : Option Decimal :=
  (alGet p.rates (CommoditiesPair.new src dst)).bind
    (fun t => alGet t.table date)

/-- The amount a matching posting is replaced with: the FX-converted
quantity in the main commodity, rounded half-away-from-zero to the
configured precision (meaningful when the conversion succeeded). -/
def convertedAmount (main : String) (dp : ℕ) (prices : Prices) (date : Date)
    (foreign : Amount) : Amount :=
  ⟨Decimal.round_dp
      ((prices.convert foreign.quantity foreign.commodity.name main
        date).toOption.getD 0) dp,
    ⟨main, .right⟩⟩

/-- Per-posting in-place replacement performed by a successful
income/expense pass. -/
def replacePosting (isAccount : String → Bool) (main : String) (dp : ℕ)
    (prices : Prices) (date : Date) (p : PPosting) : PPosting :=
  if passMatches isAccount main p then
    match p.amount with
    | some a => { p with amount := some (convertedAmount main dp prices date a) }
    | none => p
  else p

/-- The two trading-account postings appended for one matching posting:
the negated converted main-commodity amount, then the original untouched
foreign amount. -/
def tradingPair (isAccount : String → Bool) (main : String) (dp : ℕ)
    (prices : Prices) (date : Date) (p : PPosting) : List PPosting :=
  if passMatches isAccount main p then
    match p.amount with
    | some a =>
      [tradingPosting ⟨-(convertedAmount main dp prices date a).quantity,
          ⟨main, .right⟩⟩,
        tradingPosting a]
    | none => []
  else []

/-- Rate store holding only 1 EUR = 1.10 USD dated 2023-01-01. -/
def exIncomePrices : Prices :=
  ⟨[(CommoditiesPair.new "EUR" "USD", ⟨[(⟨2023, 1, 1⟩, 11/10)]⟩)]⟩

/-- A transaction holding one foreign income posting of 100 EUR. -/
def exIncomeTxn : PTransaction :=
  ⟨⟨2023, 1, 1⟩,
    [⟨"Income:Salary", .real, some ⟨100, ⟨"EUR", .right⟩⟩, none, none⟩]⟩

/-- Income classifier for the example. -/
def isIncomeEx : String → Bool := fun s => s == "Income:Salary"

/-- Two foreign income postings: EUR (rate available) then GBP (no rate). -/
def exPartialTxn : PTransaction :=
  ⟨⟨2023, 1, 1⟩,
    [⟨"Income:Salary", .real, some ⟨100, ⟨"EUR", .right⟩⟩, none, none⟩,
     ⟨"Income:Salary", .real, some ⟨50, ⟨"GBP", .right⟩⟩, none, none⟩]⟩

/-- First conversion error met when valuing a list of amounts in the
target commodity, in iteration order. -/
def firstConvErr (commodity_name : String) (date : Date) (prices : Prices) :
    List Amount → Option PricesError
  | [] => none
  | a :: rest =>
    if a.commodity.name = commodity_name then
      firstConvErr commodity_name date prices rest
    else
      match prices.convert a.quantity a.commodity.name commodity_name date with
      | .ok _ => firstConvErr commodity_name date prices rest
      | .error e => some e

/-- The exact valuation when no conversion fails: sum the target-commodity
quantities as-is and every other amount's converted value. -/
def convertedSum (commodity_name : String) (date : Date) (prices : Prices)
    (l : List Amount) (acc : Decimal) : Decimal :=
  l.foldl
    (fun acc a =>
      if a.commodity.name = commodity_name then acc + a.quantity
      else acc + ((prices.convert a.quantity a.commodity.name commodity_name
        date).toOption.getD 0))
    acc

/-- Does a transaction fall in the (year, month) bucket? -/
def sameMonth (y m : ℤ) (t : STransaction) : Bool :=
  decide (t.date.year = y) && decide (t.date.month = m)

/-- Maximal contiguous runs of transactions sharing a (year, month). -/
def groupRuns : List STransaction → List (List STransaction)
  | [] => []
  | t :: rest =>
    (t :: rest.takeWhile (sameMonth t.date.year t.date.month)) ::
      groupRuns (rest.dropWhile (sameMonth t.date.year t.date.month))
termination_by txns => txns.length
decreasing_by
  simp only [List.length_cons]
  exact Nat.lt_succ_of_le (List.Sublist.length_le (List.dropWhile_sublist _))

/-- One sealed bucket per run: the delta is the merge of exactly the run's
transactions, the total the running merge of everything so far. -/
def bucketsOfRuns : List (List STransaction) → Balance → List MonthlyBalance
  | [], _ => []
  | r :: rs, tot =>
    { year := (r.head?.map (fun t => t.date.year)).getD 0
      month := (r.head?.map (fun t => t.date.month)).getD 0
      monthly_change := r.foldl Balance.update_with_transaction Balance.new
      total := r.foldl Balance.update_with_transaction tot } ::
      bucketsOfRuns rs (r.foldl Balance.update_with_transaction tot)

/-- Transaction dated 2023-01-05. -/
def tJan5 : STransaction :=
  ⟨⟨2023, 1, 5⟩, [⟨"Assets:A", ⟨1, ⟨"USD", .right⟩⟩⟩]⟩

/-- Transaction dated 2023-01-20. -/
def tJan20 : STransaction :=
  ⟨⟨2023, 1, 20⟩, [⟨"Assets:A", ⟨2, ⟨"USD", .right⟩⟩⟩]⟩

/-- Transaction dated 2023-02-01. -/
def tFeb1 : STransaction :=
  ⟨⟨2023, 2, 1⟩, [⟨"Assets:A", ⟨4, ⟨"USD", .right⟩⟩⟩]⟩

/-- Expense classifier for the expense-pass error example. -/
def isExpenseEx : String → Bool := fun s => s == "Expenses:Food"

/-- A convertible 100 EUR income posting followed by a 30 GBP expense
posting with no recorded rate: the income pass succeeds (and appends its
trading postings), then the expense pass errors. -/
def exExpenseTxn : PTransaction :=
  ⟨⟨2023, 1, 1⟩,
    [⟨"Income:Salary", .real, some ⟨100, ⟨"EUR", .right⟩⟩, none, none⟩,
     ⟨"Expenses:Food", .real, some ⟨30, ⟨"GBP", .right⟩⟩, none, none⟩]⟩

/-! ## Theorems -/

@[simp] theorem alKeys_nil {K V : Type} : alKeys ([] : List (K × V)) = [] := rfl

@[simp] theorem alKeys_cons {K V : Type} (k : K) (v : V) (l : List (K × V)) :
    alKeys ((k, v) :: l) = k :: alKeys l := rfl

theorem alGet_alAdjoin_self {K V : Type} [DecidableEq K] (f : V → V) (d : V)
    (l : List (K × V)) (k : K) :
    alGet (alAdjoin f d l k) k =
      some (match alGet l k with | some v => f v | none => d) := by
  induction l with
  | nil => simp [alGet, alAdjoin]
  | cons e rest ih =>
    obtain ⟨k', v⟩ := e
    by_cases h : k' = k
    · subst h; simp [alGet, alAdjoin]
    · simp [alGet, alAdjoin, h, ih]

theorem alGet_alAdjoin_ne {K V : Type} [DecidableEq K] (f : V → V) (d : V)
    (l : List (K × V)) (k k' : K) (hne : k' ≠ k) :
    alGet (alAdjoin f d l k') k = alGet l k := by
  induction l with
  | nil => simp [alGet, alAdjoin, hne]
  | cons e rest ih =>
    obtain ⟨k0, v⟩ := e
    by_cases h : k0 = k'
    · subst h
      simp only [alAdjoin, if_pos rfl, alGet]
      have : ¬ k0 = k := hne
      simp [this]
    · simp only [alAdjoin, if_neg h, alGet]
      by_cases h2 : k0 = k
      · simp [h2]
      · simp [h2, ih]

theorem alKeys_alAdjoin {K V : Type} [DecidableEq K] (f : V → V) (d : V)
    (l : List (K × V)) (k : K) :
    alKeys (alAdjoin f d l k) = alKeys l ∨
      alKeys (alAdjoin f d l k) = alKeys l ++ [k] := by
  induction l with
  | nil => right; rfl
  | cons e rest ih =>
    obtain ⟨k', v⟩ := e
    by_cases h : k' = k
    · left; simp [alAdjoin, h]
    · simp only [alAdjoin, if_neg h, alKeys_cons]
      rcases ih with ih | ih
      · left; rw [ih]
      · right; rw [ih]; rfl

theorem mem_alKeys_alAdjoin {K V : Type} [DecidableEq K] (f : V → V) (d : V)
    (l : List (K × V)) (k x : K)
    (hx : x ∈ alKeys (alAdjoin f d l k)) : x ∈ alKeys l ∨ x = k := by
  rcases alKeys_alAdjoin f d l k with h | h
  · rw [h] at hx; exact Or.inl hx
  · rw [h] at hx
    rcases List.mem_append.mp hx with h1 | h1
    · exact Or.inl h1
    · right; simpa using h1

theorem nodup_alKeys_alAdjoin {K V : Type} [DecidableEq K] (f : V → V) (d : V)
    (l : List (K × V)) (k : K) (h : (alKeys l).Nodup) :
    (alKeys (alAdjoin f d l k)).Nodup := by
  induction l with
  | nil => simp [alAdjoin]
  | cons e rest ih =>
    obtain ⟨k', v⟩ := e
    rw [alKeys_cons, List.nodup_cons] at h
    by_cases h0 : k' = k
    · simp only [alAdjoin, if_pos h0, alKeys_cons, List.nodup_cons]
      exact h
    · simp only [alAdjoin, if_neg h0, alKeys_cons, List.nodup_cons]
      refine ⟨?_, ih h.2⟩
      intro hc
      rcases mem_alKeys_alAdjoin f d rest k k' hc with hc | hc
      · exact h.1 hc
      · exact h0 hc

/-- Lookup of a key absent from the key list is `none`. -/
theorem alGet_eq_none_of_not_mem {K V : Type} [DecidableEq K]
    (l : List (K × V)) (k : K) (h : k ∉ alKeys l) : alGet l k = none := by
  induction l with
  | nil => rfl
  | cons e rest ih =>
    obtain ⟨k', v⟩ := e
    rw [alKeys_cons, List.mem_cons] at h
    push_neg at h
    simp only [alGet]
    rw [if_neg (fun hc => h.1 hc.symm)]
    exact ih h.2

/-- Membership of a key in the filtered list implies membership in the
original key list. -/
theorem alKeys_filter_subset {K V : Type} (p : K × V → Bool)
    (l : List (K × V)) : ∀ x, x ∈ alKeys (l.filter p) → x ∈ alKeys l := by
  intro x hx
  unfold alKeys at hx ⊢
  rcases List.mem_map.mp hx with ⟨e, he, hex⟩
  exact List.mem_map.mpr ⟨e, (List.mem_filter.mp he).1, hex⟩

/-- Lookup through a filter, for association lists with distinct keys. -/
theorem alGet_filter {K V : Type} [DecidableEq K]
    (p : K × V → Bool) (l : List (K × V)) (k : K) (hnd : (alKeys l).Nodup) :
    alGet (l.filter p) k =
      match alGet l k with
      | some v => if p (k, v) then some v else none
      | none => none := by
  induction l with
  | nil => rfl
  | cons e rest ih =>
    obtain ⟨k', v⟩ := e
    rw [alKeys_cons, List.nodup_cons] at hnd
    by_cases h : k' = k
    · subst h
      by_cases hp : p (k', v)
      · simp [alGet, List.filter_cons, hp]
      · simp only [List.filter_cons]
        rw [if_neg (by simpa using hp)]
        rw [alGet_eq_none_of_not_mem _ _
          (fun hc => hnd.1 (alKeys_filter_subset p rest k' hc))]
        simp [alGet, hp]
    · by_cases hp : p (k', v) <;>
        simp [alGet, List.filter_cons, hp, h, ih hnd.2]

theorem alGet_alMergeWith {K V : Type} [DecidableEq K] (g : V → V → V)
    (bs : List (K × V)) (a : List (K × V)) (k : K)
    (hnd : (alKeys bs).Nodup) :
    alGet (alMergeWith g a bs) k =
      match alGet a k, alGet bs k with
      | some va, some vb => some (g va vb)
      | some va, none => some va
      | none, ob => ob := by
  induction bs generalizing a with
  | nil =>
    simp only [alMergeWith, List.foldl_nil, alGet]
    cases alGet a k <;> rfl
  | cons e rest ih =>
    obtain ⟨kb, vb⟩ := e
    rw [alKeys_cons, List.nodup_cons] at hnd
    have step : alMergeWith g a ((kb, vb) :: rest) =
        alMergeWith g (alAdjoin (fun v => g v vb) vb a kb) rest := rfl
    rw [step, ih _ hnd.2]
    by_cases h : kb = k
    · subst h
      have hrest : alGet rest kb = none :=
        alGet_eq_none_of_not_mem _ _ hnd.1
      rw [hrest, alGet_alAdjoin_self]
      simp only [alGet, if_pos rfl]
      cases alGet a kb <;> rfl
    · rw [alGet_alAdjoin_ne _ _ _ _ _ h]
      simp only [alGet, if_neg h]

theorem nodup_alKeys_alMergeWith {K V : Type} [DecidableEq K] (g : V → V → V)
    (bs a : List (K × V)) (hnd : (alKeys a).Nodup) :
    (alKeys (alMergeWith g a bs)).Nodup := by
  induction bs generalizing a with
  | nil => exact hnd
  | cons e rest ih =>
    obtain ⟨kb, vb⟩ := e
    exact ih _ (nodup_alKeys_alAdjoin _ _ _ _ hnd)

theorem Date.le_def (a b : Date) :
    a ≤ b ↔ (a.year < b.year ∨ (a.year = b.year ∧
      (a.month < b.month ∨ (a.month = b.month ∧ a.day ≤ b.day)))) := by
  show a.lexKey ≤ b.lexKey ↔ _
  simp only [Date.lexKey]
  rw [Prod.Lex.le_iff]
  constructor
  · rintro (h | ⟨h1, h2⟩)
    · exact Or.inl h
    · rw [Prod.Lex.le_iff] at h2
      exact Or.inr ⟨h1, h2⟩
  · rintro (h | ⟨h1, h2⟩)
    · exact Or.inl h
    · exact Or.inr ⟨h1, (Prod.Lex.le_iff _ _).mpr h2⟩

theorem getRateLoop_eq_lastEntryLE (date : Date) (l : List (Date × Decimal))
    (hs : tableSorted l) : ∀ acc : Option Decimal,
    getRateLoop date l acc =
      (lastEntryLE l date).elim acc (fun e => some e.2) := by
  induction l with
  | nil => intro acc; rfl
  | cons e rest ih =>
    intro acc
    obtain ⟨k, v⟩ := e
    rw [tableSorted, List.pairwise_cons] at hs
    have ihr := ih hs.2
    by_cases hk : k ≤ date
    · rw [getRateLoop, if_pos hk, ihr (some v)]
      unfold lastEntryLE
      rw [List.filter_cons, if_pos (by simpa using hk)]
      cases hfr : List.filter (fun e => decide (e.1 ≤ date)) rest with
      | nil => simp [lastEntryLE, hfr]
      | cons f0 fs =>
        have hsome : ((f0 :: fs).getLast?).isSome := by
          simp [List.getLast?_isSome]
        obtain ⟨last, hlast⟩ := Option.isSome_iff_exists.mp hsome
        simp [lastEntryLE, hfr, hlast]
    · rw [getRateLoop, if_neg hk]
      have hfr : List.filter (fun e => decide (e.1 ≤ date)) rest = [] := by
        rw [List.filter_eq_nil_iff]
        intro e he
        have : k < e.1 := hs.1 e he
        simp only [decide_eq_true_eq]
        intro hc
        exact hk (le_of_lt (lt_of_lt_of_le this hc))
      unfold lastEntryLE
      rw [List.filter_cons, if_neg (by simpa using hk), hfr]
      rfl

/-- `get_rate` on a sorted table returns the value of the greatest entry
dated on or before the requested date, or `DateTooEarly` when none. -/
theorem get_rate_eq_lastEntryLE (t : RatesTable) (date : Date)
    (hs : tableSorted t.table) :
    t.get_rate date =
      (lastEntryLE t.table date).elim (.error (.DateTooEarly date))
        (fun e => .ok e.2) := by
  unfold RatesTable.get_rate
  rw [getRateLoop_eq_lastEntryLE date t.table hs none]
  cases lastEntryLE t.table date <;> rfl

theorem alGet_mem {K V : Type} [DecidableEq K] (l : List (K × V)) (k : K)
    (v : V) (h : alGet l k = some v) : (k, v) ∈ l := by
  induction l with
  | nil => simp [alGet] at h
  | cons e rest ih =>
    obtain ⟨k', v'⟩ := e
    by_cases hk : k' = k
    · subst hk
      simp [alGet] at h
      simp [h]
    · simp only [alGet, if_neg hk] at h
      exact List.mem_cons_of_mem _ (ih h)

theorem alGet_eq_some_iff_mem {K V : Type} [DecidableEq K]
    (l : List (K × V)) (k : K) (v : V) (hnd : (alKeys l).Nodup) :
    alGet l k = some v ↔ (k, v) ∈ l := by
  refine ⟨alGet_mem l k v, ?_⟩
  intro hmem
  induction l with
  | nil => simp at hmem
  | cons e rest ih =>
    obtain ⟨k', v'⟩ := e
    rw [alKeys_cons, List.nodup_cons] at hnd
    rcases List.mem_cons.mp hmem with h | h
    · obtain ⟨h1, h2⟩ := Prod.mk.injEq .. ▸ (by exact h : (k, v) = (k', v'))
      subst h1
      simp [alGet, h2.symm]
    · have hk : k' ≠ k := by
        intro hc
        subst hc
        exact hnd.1 (List.mem_map.mpr ⟨(k', v), h, rfl⟩)
      simp only [alGet, if_neg hk]
      exact ih hnd.2 h

theorem AccountBalance.qty_ne_zero_of_zero_free (ab : AccountBalance)
    (h : ab.zero_free) (k : String) : ab.qty k ≠ some 0 := by
  intro hc
  unfold AccountBalance.qty at hc
  cases hg : alGet ab.amounts k with
  | none => rw [hg] at hc; simp at hc
  | some a =>
    rw [hg] at hc
    simp at hc
    exact h (k, a) (alGet_mem _ _ _ hg) hc

theorem AccountBalance.qty_eq_none_of_is_zero (ab : AccountBalance)
    (hz : ab.zero_free) (h : ab.is_zero = true) (k : String) :
    ab.qty k = none := by
  have hempty : ab.amounts = [] := by
    cases hl : ab.amounts with
    | nil => rfl
    | cons e rest =>
      exfalso
      unfold AccountBalance.is_zero at h
      rw [hl] at h
      simp only [List.all_cons, Bool.and_eq_true, decide_eq_true_eq] at h
      exact hz e (hl ▸ List.mem_cons_self e rest) h.1
  unfold AccountBalance.qty
  rw [hempty]
  rfl

/-- Lookup-level characterisation of `AccountBalance` merge. -/
theorem AccountBalance.qty_add (a b : AccountBalance)
    (ha : a.nodupKeys) (hb : b.nodupKeys) (k : String) :
    (a.add b).qty k = pruneQ (combineQ (a.qty k) (b.qty k)) := by
  unfold AccountBalance.add AccountBalance.remove_empties AccountBalance.qty
  have hnd : (alKeys (alMergeWith
      (fun x y => { x with quantity := x.quantity + y.quantity })
      a.amounts b.amounts)).Nodup :=
    nodup_alKeys_alMergeWith _ _ _ ha
  rw [alGet_filter _ _ _ hnd, alGet_alMergeWith _ _ _ _ hb]
  rcases hga : alGet a.amounts k with _ | va <;>
    rcases hgb : alGet b.amounts k with _ | vb <;>
      simp only [combineQ, pruneQ]
  · rfl
  · by_cases hz : vb.quantity = 0 <;>
      simp [hz, Option.map_some]
  · by_cases hz : va.quantity = 0 <;>
      simp [hz, Option.map_some]
  · by_cases hz : va.quantity + vb.quantity = 0 <;>
      simp [hz, Option.map_some]

/-- Lookup-level characterisation of `AccountBalance` subtraction as the
source implements it (fresh commodities are inserted un-negated). -/
theorem AccountBalance.qty_sub (a b : AccountBalance)
    (ha : a.nodupKeys) (hb : b.nodupKeys) (k : String) :
    (a.sub b).qty k = pruneQ (subCombineQ (a.qty k) (b.qty k)) := by
  unfold AccountBalance.sub AccountBalance.remove_empties AccountBalance.qty
  have hnd : (alKeys (alMergeWith
      (fun x y => { x with quantity := x.quantity - y.quantity })
      a.amounts b.amounts)).Nodup :=
    nodup_alKeys_alMergeWith _ _ _ ha
  rw [alGet_filter _ _ _ hnd, alGet_alMergeWith _ _ _ _ hb]
  rcases hga : alGet a.amounts k with _ | va <;>
    rcases hgb : alGet b.amounts k with _ | vb <;>
      simp only [subCombineQ, pruneQ]
  · rfl
  · by_cases hz : vb.quantity = 0 <;>
      simp [hz, Option.map_some]
  · by_cases hz : va.quantity = 0 <;>
      simp [hz, Option.map_some]
  · by_cases hz : va.quantity - vb.quantity = 0 <;>
      simp [hz, Option.map_some]

theorem AccountBalance.zero_free_add (a b : AccountBalance) :
    (a.add b).zero_free := by
  intro e he
  unfold AccountBalance.add AccountBalance.remove_empties at he
  simpa using (List.mem_filter.mp he).2

theorem AccountBalance.zero_free_sub (a b : AccountBalance) :
    (a.sub b).zero_free := by
  intro e he
  unfold AccountBalance.sub AccountBalance.remove_empties at he
  simpa using (List.mem_filter.mp he).2

theorem alKeys_filter_nodup {K V : Type} (p : K × V → Bool)
    (l : List (K × V)) (h : (alKeys l).Nodup) : (alKeys (l.filter p)).Nodup := by
  have hs : List.Sublist (l.filter p) l := List.filter_sublist l
  exact List.Nodup.sublist (hs.map Prod.fst) h

theorem AccountBalance.nodupKeys_add (a b : AccountBalance)
    (ha : a.nodupKeys) : (a.add b).nodupKeys := by
  unfold AccountBalance.nodupKeys AccountBalance.add AccountBalance.remove_empties
  dsimp only
  exact alKeys_filter_nodup _ _ (nodup_alKeys_alMergeWith _ _ _ ha)

theorem AccountBalance.nodupKeys_sub (a b : AccountBalance)
    (ha : a.nodupKeys) : (a.sub b).nodupKeys := by
  unfold AccountBalance.nodupKeys AccountBalance.sub AccountBalance.remove_empties
  dsimp only
  exact alKeys_filter_nodup _ _ (nodup_alKeys_alMergeWith _ _ _ ha)

theorem AccountBalance.is_zero_eq_false (ab : AccountBalance)
    (hz : ab.zero_free) (hne : ab.amounts ≠ []) : ab.is_zero = false := by
  cases hl : ab.amounts with
  | nil => exact absurd hl hne
  | cons e rest =>
    unfold AccountBalance.is_zero
    rw [hl]
    simp only [List.all_cons, Bool.and_eq_false_iff]
    left
    simpa using hz e (hl ▸ List.mem_cons_self e rest)

theorem AccountBalance.amounts_ne_nil_of_not_is_zero (ab : AccountBalance)
    (h : ab.is_zero = false) : ab.amounts ≠ [] := by
  intro hc
  unfold AccountBalance.is_zero at h
  rw [hc] at h
  simp at h

/-- Lookup-level characterisation of `Balance` merge, for well-formed
operands. -/
theorem Balance.view_add (A B : Balance) (hA : A.wf) (hB : B.wf)
    (acct k : String) :
    (A.add B).view acct k = pruneQ (combineQ (A.view acct k) (B.view acct k)) := by
  unfold Balance.add Balance.remove_empties Balance.view
  have hnd : (alKeys (alMergeWith AccountBalance.add
      A.account_balances B.account_balances)).Nodup :=
    nodup_alKeys_alMergeWith _ _ _ hA.1
  rw [alGet_filter _ _ _ hnd, alGet_alMergeWith _ _ _ _ hB.1]
  rcases hga : alGet A.account_balances acct with _ | xa <;>
    rcases hgb : alGet B.account_balances acct with _ | yb
  · rfl
  · -- only in B
    obtain ⟨hnd_b, hzf_b, hne_b⟩ := hB.2 (acct, yb) (alGet_mem _ _ _ hgb)
    dsimp only
    rw [AccountBalance.is_zero_eq_false yb hzf_b hne_b]
    cases hq : yb.qty k with
    | none => simp [pruneQ, combineQ, hq]
    | some v =>
      have hq0 : yb.qty k ≠ some 0 :=
        AccountBalance.qty_ne_zero_of_zero_free yb hzf_b k
      have hv : ¬ v = 0 := by
        intro hc; exact hq0 (by rw [hq, hc])
      simp [pruneQ, combineQ, hq, hv]
  · -- only in A
    obtain ⟨hnd_a, hzf_a, hne_a⟩ := hA.2 (acct, xa) (alGet_mem _ _ _ hga)
    dsimp only
    rw [AccountBalance.is_zero_eq_false xa hzf_a hne_a]
    cases hq : xa.qty k with
    | none => simp [pruneQ, combineQ, hq]
    | some v =>
      have hq0 : xa.qty k ≠ some 0 :=
        AccountBalance.qty_ne_zero_of_zero_free xa hzf_a k
      have hv : ¬ v = 0 := by
        intro hc; exact hq0 (by rw [hq, hc])
      simp [pruneQ, combineQ, hq, hv]
  · -- in both: the inner merge decides everything
    obtain ⟨hnd_a, hzf_a, hne_a⟩ := hA.2 (acct, xa) (alGet_mem _ _ _ hga)
    obtain ⟨hnd_b, hzf_b, hne_b⟩ := hB.2 (acct, yb) (alGet_mem _ _ _ hgb)
    have hchar := AccountBalance.qty_add xa yb hnd_a hnd_b k
    dsimp only
    cases hz : (xa.add yb).is_zero with
    | true =>
      have hqn : (xa.add yb).qty k = none :=
        AccountBalance.qty_eq_none_of_is_zero _
          (AccountBalance.zero_free_add xa yb) hz k
      rw [hqn] at hchar
      simp [hz, ← hchar]
    | false =>
      simp only [hz, Bool.false_eq_true, not_false_eq_true, decide_not]
      simpa using hchar

theorem combineQ_comm (x y : Option ℚ) : combineQ x y = combineQ y x := by
  rcases x with _ | a <;> rcases y with _ | b <;> simp [combineQ, add_comm]

theorem combineQ_assoc (x y z : Option ℚ) :
    combineQ (combineQ x y) z = combineQ x (combineQ y z) := by
  rcases x with _ | a <;> rcases y with _ | b <;> rcases z with _ | c <;>
    simp [combineQ, add_assoc]

theorem pruneQ_combineQ_left (y z : Option ℚ) :
    pruneQ (combineQ (pruneQ y) z) = pruneQ (combineQ y z) := by
  rcases y with _ | b
  · rfl
  · by_cases hb : b = 0
    · subst hb
      rcases z with _ | c <;> simp [combineQ, pruneQ]
    · simp [pruneQ, hb]

theorem pruneQ_combineQ_right (x t : Option ℚ) :
    pruneQ (combineQ x (pruneQ t)) = pruneQ (combineQ x t) := by
  rcases t with _ | s
  · rfl
  · by_cases hs : s = 0
    · subst hs
      rcases x with _ | a <;> simp [combineQ, pruneQ]
    · simp [pruneQ, hs]

/-- `Balance` merge preserves well-formedness. -/
theorem Balance.wf_add (A B : Balance) (hA : A.wf) (hB : B.wf) :
    (A.add B).wf := by
  have hnd : (alKeys (alMergeWith AccountBalance.add
      A.account_balances B.account_balances)).Nodup :=
    nodup_alKeys_alMergeWith _ _ _ hA.1
  constructor
  · exact alKeys_filter_nodup _ _ hnd
  · intro e he
    have hfilter := List.mem_filter.mp he
    have hkeep : e.2.is_zero = false := by simpa using hfilter.2
    have hmem := hfilter.1
    have hget : alGet (alMergeWith AccountBalance.add
        A.account_balances B.account_balances) e.1 = some e.2 :=
      (alGet_eq_some_iff_mem _ _ _ hnd).mpr (by
        obtain ⟨k, v⟩ := e
        exact hmem)
    rw [alGet_alMergeWith _ _ _ _ hB.1] at hget
    have hne : e.2.amounts ≠ [] :=
      AccountBalance.amounts_ne_nil_of_not_is_zero _ hkeep
    rcases hga : alGet A.account_balances e.1 with _ | xa <;>
      rcases hgb : alGet B.account_balances e.1 with _ | yb <;>
        rw [hga, hgb] at hget <;> dsimp only at hget
    · exact absurd hget (by simp)
    · obtain ⟨hnd_b, hzf_b, _⟩ := hB.2 (e.1, yb) (alGet_mem _ _ _ hgb)
      have heq : e.2 = yb := by injection hget with h; exact h.symm
      rw [heq]
      exact ⟨hnd_b, hzf_b, heq ▸ hne⟩
    · obtain ⟨hnd_a, hzf_a, _⟩ := hA.2 (e.1, xa) (alGet_mem _ _ _ hga)
      have heq : e.2 = xa := by injection hget with h; exact h.symm
      rw [heq]
      exact ⟨hnd_a, hzf_a, heq ▸ hne⟩
    · obtain ⟨hnd_a, _, _⟩ := hA.2 (e.1, xa) (alGet_mem _ _ _ hga)
      have heq : e.2 = xa.add yb := by injection hget with h; exact h.symm
      rw [heq]
      exact ⟨AccountBalance.nodupKeys_add xa yb hnd_a,
        AccountBalance.zero_free_add xa yb, heq ▸ hne⟩

/-- `Balance` subtraction preserves well-formedness (the invariants, not
the arithmetic: see the `SubAssign` insertion bug). -/
theorem Balance.wf_sub (A B : Balance) (hA : A.wf) (hB : B.wf) :
    (A.sub B).wf := by
  have hnd : (alKeys (alMergeWith AccountBalance.sub
      A.account_balances B.account_balances)).Nodup :=
    nodup_alKeys_alMergeWith _ _ _ hA.1
  constructor
  · exact alKeys_filter_nodup _ _ hnd
  · intro e he
    have hfilter := List.mem_filter.mp he
    have hkeep : e.2.is_zero = false := by simpa using hfilter.2
    have hmem := hfilter.1
    have hget : alGet (alMergeWith AccountBalance.sub
        A.account_balances B.account_balances) e.1 = some e.2 :=
      (alGet_eq_some_iff_mem _ _ _ hnd).mpr (by
        obtain ⟨k, v⟩ := e
        exact hmem)
    rw [alGet_alMergeWith _ _ _ _ hB.1] at hget
    have hne : e.2.amounts ≠ [] :=
      AccountBalance.amounts_ne_nil_of_not_is_zero _ hkeep
    rcases hga : alGet A.account_balances e.1 with _ | xa <;>
      rcases hgb : alGet B.account_balances e.1 with _ | yb <;>
        rw [hga, hgb] at hget <;> dsimp only at hget
    · exact absurd hget (by simp)
    · obtain ⟨hnd_b, hzf_b, _⟩ := hB.2 (e.1, yb) (alGet_mem _ _ _ hgb)
      have heq : e.2 = yb := by injection hget with h; exact h.symm
      rw [heq]
      exact ⟨hnd_b, hzf_b, heq ▸ hne⟩
    · obtain ⟨hnd_a, hzf_a, _⟩ := hA.2 (e.1, xa) (alGet_mem _ _ _ hga)
      have heq : e.2 = xa := by injection hget with h; exact h.symm
      rw [heq]
      exact ⟨hnd_a, hzf_a, heq ▸ hne⟩
    · obtain ⟨hnd_a, _, _⟩ := hA.2 (e.1, xa) (alGet_mem _ _ _ hga)
      have heq : e.2 = xa.sub yb := by injection hget with h; exact h.symm
      rw [heq]
      exact ⟨AccountBalance.nodupKeys_sub xa yb hnd_a,
        AccountBalance.zero_free_sub xa yb, heq ▸ hne⟩

/-- C2: a conversion query with no table for the `(src,dst)` pair fails
with `NoSuchCommoditiesPair`; otherwise `get_rate` on the (sorted) table
returns the rate of the greatest recorded date on or before the requested
date — a last-value-wins step function — failing with `DateTooEarly` when
no entry is on or before the date; with entries at `d1 < d2` a date in
`[d1, d2)` resolves to the `d1` rate, a date `≥ d2` to the `d2` rate, a
date `< d1` fails; on success the result is `amount * rate`. -/
theorem C2_convert_step_function :
    (∀ (p : Prices) (amount : Decimal) (src dst : String) (date : Date),
      alGet p.rates (CommoditiesPair.new src dst) = none →
      p.convert amount src dst date =
        .error (.NoSuchCommoditiesPair (CommoditiesPair.new src dst))) ∧
    (∀ (t : RatesTable) (date : Date), tableSorted t.table →
      t.get_rate date =
        (lastEntryLE t.table date).elim (.error (.DateTooEarly date))
          (fun e => .ok e.2)) ∧
    (∀ (p : Prices) (amount : Decimal) (src dst : String) (date : Date)
      (r : Decimal), p.get_rate src dst date = .ok r →
      p.convert amount src dst date = .ok (amount * r)) ∧
    (∀ (d1 d2 : Date) (r1 r2 : Decimal) (date : Date), d1 < d2 →
      (date < d1 →
        RatesTable.get_rate ⟨[(d1, r1), (d2, r2)]⟩ date =
          .error (.DateTooEarly date)) ∧
      (d1 ≤ date → date < d2 →
        RatesTable.get_rate ⟨[(d1, r1), (d2, r2)]⟩ date = .ok r1) ∧
      (d2 ≤ date →
        RatesTable.get_rate ⟨[(d1, r1), (d2, r2)]⟩ date = .ok r2)) := by
  refine ⟨?_, ?_, ?_, ?_⟩
  · intro p amount src dst date h
    unfold Prices.convert Prices.get_rate Prices.get_rates_table
    rw [h]
    rfl
  · exact get_rate_eq_lastEntryLE
  · intro p amount src dst date r h
    unfold Prices.convert
    rw [h]
    rfl
  · intro d1 d2 r1 r2 date h12
    refine ⟨?_, ?_, ?_⟩
    · intro h1
      have hn1 : ¬ d1 ≤ date := not_le.mpr h1
      unfold RatesTable.get_rate getRateLoop
      rw [if_neg hn1]
    · intro h1 h2
      have hn2 : ¬ d2 ≤ date := not_le.mpr h2
      unfold RatesTable.get_rate getRateLoop
      rw [if_pos h1]
      unfold getRateLoop
      rw [if_neg hn2]
    · intro h2
      have h1 : d1 ≤ date := le_of_lt (lt_of_lt_of_le h12 h2)
      unfold RatesTable.get_rate getRateLoop
      rw [if_pos h1]
      unfold getRateLoop
      rw [if_pos h2]
      rfl

/-- Witness for C2 at concrete inputs: an empty store fails with
`NoSuchCommoditiesPair`; a two-entry table (2023-01-01 at 11/10,
2023-02-01 at 12/10) resolves 2023-01-15 to 11/10, 2023-02-10 to 12/10 and
fails on 2022-12-31; conversion multiplies. -/
theorem C2_convert_step_function_witness :
    (Prices.empty.convert 5 "EUR" "USD" ⟨2023, 1, 1⟩ =
      .error (.NoSuchCommoditiesPair (CommoditiesPair.new "EUR" "USD"))) ∧
    (RatesTable.get_rate ⟨[(⟨2023, 1, 1⟩, 11/10), (⟨2023, 2, 1⟩, 12/10)]⟩
      ⟨2023, 1, 15⟩ = .ok (11/10)) ∧
    (RatesTable.get_rate ⟨[(⟨2023, 1, 1⟩, 11/10), (⟨2023, 2, 1⟩, 12/10)]⟩
      ⟨2023, 2, 10⟩ = .ok (12/10)) ∧
    (RatesTable.get_rate ⟨[(⟨2023, 1, 1⟩, 11/10), (⟨2023, 2, 1⟩, 12/10)]⟩
      ⟨2022, 12, 31⟩ = .error (.DateTooEarly ⟨2022, 12, 31⟩)) ∧
    (Prices.convert ⟨[(CommoditiesPair.new "EUR" "USD",
        ⟨[(⟨2023, 1, 1⟩, 11/10)]⟩)]⟩ 5 "EUR" "USD" ⟨2023, 1, 15⟩ =
      .ok (5 * (11/10))) :=
  ⟨C2_convert_step_function.1 Prices.empty 5 "EUR" "USD" ⟨2023, 1, 1⟩ rfl,
    (C2_convert_step_function.2.2.2 ⟨2023, 1, 1⟩ ⟨2023, 2, 1⟩ (11/10) (12/10)
      ⟨2023, 1, 15⟩ (by decide)).2.1 (by decide) (by decide),
    (C2_convert_step_function.2.2.2 ⟨2023, 1, 1⟩ ⟨2023, 2, 1⟩ (11/10) (12/10)
      ⟨2023, 2, 10⟩ (by decide)).2.2 (by decide),
    (C2_convert_step_function.2.2.2 ⟨2023, 1, 1⟩ ⟨2023, 2, 1⟩ (11/10) (12/10)
      ⟨2022, 12, 31⟩ (by decide)).1 (by decide),
    C2_convert_step_function.2.2.1 _ 5 "EUR" "USD" ⟨2023, 1, 15⟩ (11/10) rfl⟩

theorem alGet_btInsert_self (l : List (Date × Decimal)) (date : Date)
    (rate : Decimal) : alGet (btInsert l date rate) date = some rate := by
  induction l with
  | nil => simp [btInsert, alGet]
  | cons e rest ih =>
    obtain ⟨k, v⟩ := e
    by_cases h1 : date < k
    · simp [btInsert, h1, alGet]
    · by_cases h2 : date = k
      · simp [btInsert, h1, h2, alGet]
      · have hk : ¬ k = date := fun hc => h2 hc.symm
        simp [btInsert, h1, h2, alGet, hk, ih]

theorem storedRate_add_price_self (p : Prices) (src dst : String)
    (rate : Decimal) (date : Date) :
    storedRate (p.add_price src dst rate date) src dst date = some rate := by
  unfold storedRate Prices.add_price
  rw [alGet_alAdjoin_self]
  cases alGet p.rates (CommoditiesPair.new src dst) <;>
    simp [alGet_btInsert_self]

theorem storedRate_add_price_other (p : Prices) (src dst s' d' : String)
    (rate : Decimal) (date date' : Date)
    (hne : CommoditiesPair.new s' d' ≠ CommoditiesPair.new src dst) :
    storedRate (p.add_price src dst rate date) s' d' date' =
      storedRate p s' d' date' := by
  unfold storedRate Prices.add_price
  rw [alGet_alAdjoin_ne _ _ _ _ _ (fun hc => hne hc.symm)]

/-- C7: for every ingested price point both directions are stored as
independent dated entries — the forward rate in the `(src,dst)` table and
its reciprocal in the `(dst,src)` table; with the single point
"1 EUR = 1.10 USD" on 2023-01-01, `convert(1, EUR, USD)` gives `1.10` and
`convert(1, USD, EUR)` gives exactly the stored reciprocal `1/1.10`. -/
theorem C7_both_directions_stored :
    (∀ (p : Prices) (cp : CommodityPrice),
      cp.commodity_name ≠ cp.amount.commodity.name →
      storedRate (p.add_prices [cp]) cp.commodity_name
          cp.amount.commodity.name cp.datetime = some cp.amount.quantity ∧
      storedRate (p.add_prices [cp]) cp.amount.commodity.name
          cp.commodity_name cp.datetime = some (1 / cp.amount.quantity)) ∧
    ((Prices.empty.add_prices
        [⟨⟨2023, 1, 1⟩, "EUR", ⟨11/10, ⟨"USD", .right⟩⟩⟩]).convert
      1 "EUR" "USD" ⟨2023, 1, 1⟩ = .ok (11/10)) ∧
    ((Prices.empty.add_prices
        [⟨⟨2023, 1, 1⟩, "EUR", ⟨11/10, ⟨"USD", .right⟩⟩⟩]).convert
      1 "USD" "EUR" ⟨2023, 1, 1⟩ = .ok (1 / (11/10))) ∧
    (storedRate (Prices.empty.add_prices
        [⟨⟨2023, 1, 1⟩, "EUR", ⟨11/10, ⟨"USD", .right⟩⟩⟩])
      "USD" "EUR" ⟨2023, 1, 1⟩ = some (1 / (11/10))) := by
  refine ⟨?_, ?_, ?_, ?_⟩
  · intro p cp hne
    have hpair : CommoditiesPair.new cp.commodity_name cp.amount.commodity.name ≠
        CommoditiesPair.new cp.amount.commodity.name cp.commodity_name := by
      intro hc
      exact hne (congrArg CommoditiesPair.src_commodity_name hc)
    constructor
    · show storedRate ((p.add_price cp.commodity_name cp.amount.commodity.name
          cp.amount.quantity cp.datetime).add_price cp.amount.commodity.name
          cp.commodity_name (1 / cp.amount.quantity) cp.datetime) _ _ _ = _
      rw [storedRate_add_price_other _ _ _ _ _ _ _ _ hpair,
        storedRate_add_price_self]
    · show storedRate ((p.add_price cp.commodity_name cp.amount.commodity.name
          cp.amount.quantity cp.datetime).add_price cp.amount.commodity.name
          cp.commodity_name (1 / cp.amount.quantity) cp.datetime) _ _ _ = _
      rw [storedRate_add_price_self]
  · have h : (Prices.empty.add_prices
        [⟨⟨2023, 1, 1⟩, "EUR", ⟨11/10, ⟨"USD", .right⟩⟩⟩]).convert
        1 "EUR" "USD" ⟨2023, 1, 1⟩ = .ok (1 * (11/10)) := rfl
    rw [h]
    norm_num
  · have h : (Prices.empty.add_prices
        [⟨⟨2023, 1, 1⟩, "EUR", ⟨11/10, ⟨"USD", .right⟩⟩⟩]).convert
        1 "USD" "EUR" ⟨2023, 1, 1⟩ = .ok (1 * (1 / (11/10))) := rfl
    rw [h]
    norm_num
  · rfl

/-- Witness for C7's general part at the concrete EUR/USD point. -/
theorem C7_both_directions_stored_witness :
    storedRate (Prices.empty.add_prices
        [⟨⟨2023, 1, 1⟩, "EUR", ⟨11/10, ⟨"USD", .right⟩⟩⟩])
      "EUR" "USD" ⟨2023, 1, 1⟩ = some (11/10) ∧
    storedRate (Prices.empty.add_prices
        [⟨⟨2023, 1, 1⟩, "EUR", ⟨11/10, ⟨"USD", .right⟩⟩⟩])
      "USD" "EUR" ⟨2023, 1, 1⟩ = some (1 / (11/10)) :=
  C7_both_directions_stored.1 Prices.empty
    ⟨⟨2023, 1, 1⟩, "EUR", ⟨11/10, ⟨"USD", .right⟩⟩⟩ (by decide)

theorem impliedPrice_eq_none (t : PTransaction) (hlen : t.postings.length = 2)
    (p : PPosting) (hp : p ∈ t.postings) (hnone : p.amount = none) :
    impliedPrice t = none := by
  rcases hps : t.postings with _ | ⟨p0, _ | ⟨p1, _ | ⟨p2, rest⟩⟩⟩ <;>
    rw [hps] at hlen <;> try simp at hlen
  rw [hps] at hp
  unfold impliedPrice
  rw [hps]
  simp only [List.length_cons, List.length_nil, if_pos rfl]
  rcases ha0 : p0.amount with _ | a0
  · simp [List.get?, ha0]
  · rcases ha1 : p1.amount with _ | a1
    · simp [List.get?, ha0, ha1]
    · exfalso
      rcases List.mem_cons.mp hp with h | h
      · subst h; rw [hnone] at ha0; cases ha0
      · rcases List.mem_cons.mp h with h | h
        · subst h; rw [hnone] at ha1; cases ha1
        · simp at h

theorem pricesScan_none_absorb (items : List LedgerItem) :
    items.foldl pricesScanStep none = none := by
  induction items with
  | nil => rfl
  | cons i rest ih =>
    have : pricesScanStep none i = none := by cases i <;> rfl
    simp only [List.foldl_cons, this, ih]

theorem pricesScan_eq_none (items : List LedgerItem) (t : PTransaction)
    (hmem : LedgerItem.transaction t ∈ items) (hbad : impliedPrice t = none) :
    ∀ acc, items.foldl pricesScanStep acc = none := by
  induction items with
  | nil => cases hmem
  | cons i rest ih =>
    intro acc
    rcases List.mem_cons.mp hmem with h | h
    · subst h
      have hstep : pricesScanStep acc (.transaction t) = none := by
        cases acc with
        | none => rfl
        | some l => simp [pricesScanStep, hbad]
      simp only [List.foldl_cons, hstep]
      exact pricesScan_none_absorb rest
    · simp only [List.foldl_cons]
      exact ih h _

/-- C10: the transaction-implied rate scan `unwrap`s both optional posting
amounts of every exactly-2-posting transaction before any other check, so
`Prices::load` panics on any ledger containing a 2-posting transaction with
a missing posting amount; in particular on a concrete such ledger. -/
theorem C10_load_panics_on_missing_amount :
    (∀ (ledger : PLedger) (t : PTransaction),
      LedgerItem.transaction t ∈ ledger.items →
      t.postings.length = 2 →
      (∃ p ∈ t.postings, p.amount = none) →
      Prices.load ledger = none) ∧
    (Prices.load ⟨[.transaction ⟨⟨2023, 1, 1⟩,
        [⟨"Assets:A", .real, none, none, none⟩,
         ⟨"Assets:B", .real, some ⟨1, ⟨"USD", .right⟩⟩, none, none⟩]⟩]⟩
      = none) := by
  constructor
  · intro ledger t hmem hlen hbad
    obtain ⟨p, hp, hnone⟩ := hbad
    unfold Prices.load get_prices_from_transactions
    rw [pricesScan_eq_none ledger.items t hmem
      (impliedPrice_eq_none t hlen p hp hnone) (some [])]
    rfl
  · rfl

/-- Witness for C10's general part at the concrete bad ledger. -/
theorem C10_load_panics_on_missing_amount_witness :
    Prices.load ⟨[.transaction ⟨⟨2023, 1, 1⟩,
        [⟨"Assets:A", .real, none, none, none⟩,
         ⟨"Assets:B", .real, some ⟨1, ⟨"USD", .right⟩⟩, none, none⟩]⟩]⟩
      = none :=
  C10_load_panics_on_missing_amount.1
    ⟨[.transaction ⟨⟨2023, 1, 1⟩,
        [⟨"Assets:A", .real, none, none, none⟩,
         ⟨"Assets:B", .real, some ⟨1, ⟨"USD", .right⟩⟩, none, none⟩]⟩]⟩
    ⟨⟨2023, 1, 1⟩,
        [⟨"Assets:A", .real, none, none, none⟩,
         ⟨"Assets:B", .real, some ⟨1, ⟨"USD", .right⟩⟩, none, none⟩]⟩
    (List.mem_cons_self _ _) rfl
    ⟨⟨"Assets:A", .real, none, none, none⟩, List.mem_cons_self _ _, rfl⟩

/-- C4 (evaluation at the failing input): subtracting an `AccountBalance`
holding USD 5 from an empty one yields USD +5, not USD -5 — the
`SubAssign` `or_insert_with` inserts the right operand's amount un-negated
when the commodity is absent from the left operand; the `Balance`-level
`SubAssign` clones whole account balances un-negated the same way. -/
theorem C4_subassign_inserts_unnegated :
    (AccountBalance.sub ⟨[]⟩ ⟨[("USD", ⟨5, ⟨"USD", .right⟩⟩)]⟩).amounts
      = [("USD", ⟨5, ⟨"USD", .right⟩⟩)] ∧
    (AccountBalance.sub ⟨[]⟩ ⟨[("USD", ⟨5, ⟨"USD", .right⟩⟩)]⟩).qty "USD"
      ≠ some (-5) ∧
    (Balance.sub ⟨[]⟩
        ⟨[("Assets:A", ⟨[("USD", ⟨5, ⟨"USD", .right⟩⟩)]⟩)]⟩).view
      "Assets:A" "USD" = some 5 := by
  refine ⟨?_, ?_, ?_⟩
  · norm_num [AccountBalance.sub, AccountBalance.remove_empties, alMergeWith,
      alAdjoin]
  · norm_num [AccountBalance.sub, AccountBalance.remove_empties, alMergeWith,
      alAdjoin, AccountBalance.qty, alGet]
  · norm_num [Balance.sub, Balance.remove_empties, alMergeWith, alAdjoin,
      Balance.view, AccountBalance.qty, alGet, AccountBalance.sub,
      AccountBalance.remove_empties, AccountBalance.is_zero]

/-- C3 counterexample: one transaction posting +5 USD, -5 USD and +3 EUR to
the same account leaves that account holding a USD entry whose quantity is
exactly zero — `update_with_transaction` only prunes accounts that are
entirely zero, not zero entries inside a surviving account. -/
theorem C3_counterexample :
    (Balance.update_with_transaction Balance.new
      ⟨⟨2023, 1, 1⟩,
        [⟨"Assets:A", ⟨5, ⟨"USD", .right⟩⟩⟩,
         ⟨"Assets:A", ⟨-5, ⟨"USD", .right⟩⟩⟩,
         ⟨"Assets:A", ⟨3, ⟨"EUR", .right⟩⟩⟩]⟩).view "Assets:A" "USD"
      = some 0 ∧
    (Balance.from_ledger ⟨[],
      [⟨⟨2023, 1, 1⟩,
        [⟨"Assets:A", ⟨5, ⟨"USD", .right⟩⟩⟩,
         ⟨"Assets:A", ⟨-5, ⟨"USD", .right⟩⟩⟩,
         ⟨"Assets:A", ⟨3, ⟨"EUR", .right⟩⟩⟩]⟩]⟩).view "Assets:A" "USD"
      = some 0 := by
  constructor <;>
    norm_num [Balance.from_ledger, Balance.update_with_transaction,
      Balance.post, Balance.remove_empties, Balance.view, Balance.new,
      AccountBalance.qty, AccountBalance.is_zero, AccountBalance.new,
      alAdjoin, alGet, List.filter]

/-- C3 amended: the merge operators do preserve the invariants —
`AccountBalance` `AddAssign`/`SubAssign` leave no zero-quantity entry, and
`Balance` `AddAssign`/`SubAssign` preserve well-formedness — and
`update_with_transaction` (hence `From<&Ledger>`) preserves the
`Balance`-level invariant (no surviving account is entirely zero, in
particular none is empty), but it can retain a zero-quantity commodity
entry inside an account that also holds a nonzero commodity. -/
theorem C3_invariants_amended :
    (∀ a b : AccountBalance, (a.add b).zero_free ∧ (a.sub b).zero_free) ∧
    (∀ A B : Balance, A.wf → B.wf → (A.add B).wf ∧ (A.sub B).wf) ∧
    (∀ (b : Balance) (t : STransaction),
      ∀ e ∈ (b.update_with_transaction t).account_balances,
        e.2.is_zero = false) ∧
    ((Balance.update_with_transaction Balance.new
      ⟨⟨2023, 1, 1⟩,
        [⟨"Assets:A", ⟨5, ⟨"USD", .right⟩⟩⟩,
         ⟨"Assets:A", ⟨-5, ⟨"USD", .right⟩⟩⟩,
         ⟨"Assets:A", ⟨3, ⟨"EUR", .right⟩⟩⟩]⟩).view "Assets:A" "USD"
      = some 0) := by
  refine ⟨?_, ?_, ?_, ?_⟩
  · intro a b
    exact ⟨AccountBalance.zero_free_add a b, AccountBalance.zero_free_sub a b⟩
  · intro A B hA hB
    exact ⟨Balance.wf_add A B hA hB, Balance.wf_sub A B hA hB⟩
  · intro b t e he
    unfold Balance.update_with_transaction Balance.remove_empties at he
    simpa using (List.mem_filter.mp he).2
  · norm_num [Balance.update_with_transaction, Balance.post,
      Balance.remove_empties, Balance.view, Balance.new,
      AccountBalance.qty, AccountBalance.is_zero, AccountBalance.new,
      alAdjoin, alGet, List.filter]

/-- Witness for C3's amended theorem at concrete well-formed balances. -/
theorem C3_invariants_amended_witness :
    (Balance.add ⟨[("Assets:A", ⟨[("USD", ⟨1, ⟨"USD", .right⟩⟩)]⟩)]⟩
      ⟨[("Assets:B", ⟨[("EUR", ⟨2, ⟨"EUR", .right⟩⟩)]⟩)]⟩).wf ∧
    (Balance.sub ⟨[("Assets:A", ⟨[("USD", ⟨1, ⟨"USD", .right⟩⟩)]⟩)]⟩
      ⟨[("Assets:B", ⟨[("EUR", ⟨2, ⟨"EUR", .right⟩⟩)]⟩)]⟩).wf := by
  have hA : (Balance.wf ⟨[("Assets:A", ⟨[("USD", ⟨1, ⟨"USD", .right⟩⟩)]⟩)]⟩) := by
    refine ⟨by simp, ?_⟩
    intro e he
    simp only [List.mem_singleton] at he
    subst he
    refine ⟨by simp, ?_, by simp⟩
    intro x hx
    simp only [List.mem_singleton] at hx
    subst hx
    norm_num
  have hB : (Balance.wf ⟨[("Assets:B", ⟨[("EUR", ⟨2, ⟨"EUR", .right⟩⟩)]⟩)]⟩) := by
    refine ⟨by simp, ?_⟩
    intro e he
    simp only [List.mem_singleton] at he
    subst he
    refine ⟨by simp, ?_, by simp⟩
    intro x hx
    simp only [List.mem_singleton] at hx
    subst hx
    norm_num
  exact C3_invariants_amended.2.1 _ _ hA hB

/-- C8 counterexample: merge is not literally commutative — when both
operands hold the same commodity, the merged `Amount` keeps the left
operand's commodity record (its display position), so merging
USD(left-positioned) 1 with USD(right-positioned) 2 in the two orders
yields structurally different results. -/
theorem C8_counterexample :
    AccountBalance.add ⟨[("USD", ⟨1, ⟨"USD", .left⟩⟩)]⟩
        ⟨[("USD", ⟨2, ⟨"USD", .right⟩⟩)]⟩ ≠
      AccountBalance.add ⟨[("USD", ⟨2, ⟨"USD", .right⟩⟩)]⟩
        ⟨[("USD", ⟨1, ⟨"USD", .left⟩⟩)]⟩ := by
  have h1 : (AccountBalance.add ⟨[("USD", ⟨1, ⟨"USD", .left⟩⟩)]⟩
      ⟨[("USD", ⟨2, ⟨"USD", .right⟩⟩)]⟩).amounts
      = [("USD", ⟨3, ⟨"USD", .left⟩⟩)] := by
    norm_num [AccountBalance.add, AccountBalance.remove_empties, alMergeWith,
      alAdjoin]
  have h2 : (AccountBalance.add ⟨[("USD", ⟨2, ⟨"USD", .right⟩⟩)]⟩
      ⟨[("USD", ⟨1, ⟨"USD", .left⟩⟩)]⟩).amounts
      = [("USD", ⟨3, ⟨"USD", .right⟩⟩)] := by
    norm_num [AccountBalance.add, AccountBalance.remove_empties, alMergeWith,
      alAdjoin]
  intro hc
  rw [show AccountBalance.add ⟨[("USD", ⟨1, ⟨"USD", .left⟩⟩)]⟩
      ⟨[("USD", ⟨2, ⟨"USD", .right⟩⟩)]⟩ = ⟨(AccountBalance.add
        ⟨[("USD", ⟨1, ⟨"USD", .left⟩⟩)]⟩
        ⟨[("USD", ⟨2, ⟨"USD", .right⟩⟩)]⟩).amounts⟩ from rfl, h1] at hc
  rw [show AccountBalance.add ⟨[("USD", ⟨2, ⟨"USD", .right⟩⟩)]⟩
      ⟨[("USD", ⟨1, ⟨"USD", .left⟩⟩)]⟩ = ⟨(AccountBalance.add
        ⟨[("USD", ⟨2, ⟨"USD", .right⟩⟩)]⟩
        ⟨[("USD", ⟨1, ⟨"USD", .left⟩⟩)]⟩).amounts⟩ from rfl, h2] at hc
  simp at hc

/-- C8 amended: merge is commutative and associative on the semantic
content — the commodity-to-quantity mapping of an `AccountBalance` and the
account/commodity-to-quantity mapping of a `Balance` — though the stored
`Amount`'s display position can depend on operand order. -/
theorem C8_merge_comm_assoc_on_quantities :
    (∀ a b : AccountBalance, a.nodupKeys → b.nodupKeys →
      ∀ k, (a.add b).qty k = (b.add a).qty k) ∧
    (∀ a b c : AccountBalance, a.nodupKeys → b.nodupKeys → c.nodupKeys →
      ∀ k, ((a.add b).add c).qty k = (a.add (b.add c)).qty k) ∧
    (∀ A B : Balance, A.wf → B.wf →
      ∀ acct k, (A.add B).view acct k = (B.add A).view acct k) ∧
    (∀ A B C : Balance, A.wf → B.wf → C.wf →
      ∀ acct k, ((A.add B).add C).view acct k = (A.add (B.add C)).view acct k) := by
  refine ⟨?_, ?_, ?_, ?_⟩
  · intro a b ha hb k
    rw [AccountBalance.qty_add a b ha hb, AccountBalance.qty_add b a hb ha,
      combineQ_comm]
  · intro a b c ha hb hc k
    rw [AccountBalance.qty_add _ c (AccountBalance.nodupKeys_add a b ha) hc,
      AccountBalance.qty_add a b ha hb,
      AccountBalance.qty_add a _ ha (AccountBalance.nodupKeys_add b c hb),
      AccountBalance.qty_add b c hb hc,
      pruneQ_combineQ_left, pruneQ_combineQ_right, combineQ_assoc]
  · intro A B hA hB acct k
    rw [Balance.view_add A B hA hB, Balance.view_add B A hB hA, combineQ_comm]
  · intro A B C hA hB hC acct k
    rw [Balance.view_add _ C (Balance.wf_add A B hA hB) hC,
      Balance.view_add A B hA hB,
      Balance.view_add A _ hA (Balance.wf_add B C hB hC),
      Balance.view_add B C hB hC,
      pruneQ_combineQ_left, pruneQ_combineQ_right, combineQ_assoc]

/-- Witness for C8's amended theorem at concrete balances. -/
theorem C8_merge_comm_assoc_on_quantities_witness :
    (∀ k, (AccountBalance.add ⟨[("USD", ⟨1, ⟨"USD", .left⟩⟩)]⟩
        ⟨[("USD", ⟨2, ⟨"USD", .right⟩⟩)]⟩).qty k =
      (AccountBalance.add ⟨[("USD", ⟨2, ⟨"USD", .right⟩⟩)]⟩
        ⟨[("USD", ⟨1, ⟨"USD", .left⟩⟩)]⟩).qty k) ∧
    (∀ acct k, (Balance.add ⟨[("Assets:A", ⟨[("USD", ⟨1, ⟨"USD", .right⟩⟩)]⟩)]⟩
        ⟨[("Assets:B", ⟨[("EUR", ⟨2, ⟨"EUR", .right⟩⟩)]⟩)]⟩).view acct k =
      (Balance.add ⟨[("Assets:B", ⟨[("EUR", ⟨2, ⟨"EUR", .right⟩⟩)]⟩)]⟩
        ⟨[("Assets:A", ⟨[("USD", ⟨1, ⟨"USD", .right⟩⟩)]⟩)]⟩).view acct k) := by
  have hA : (Balance.wf ⟨[("Assets:A", ⟨[("USD", ⟨1, ⟨"USD", .right⟩⟩)]⟩)]⟩) := by
    refine ⟨by simp, ?_⟩
    intro e he
    simp only [List.mem_singleton] at he
    subst he
    refine ⟨by simp, ?_, by simp⟩
    intro x hx
    simp only [List.mem_singleton] at hx
    subst hx
    norm_num
  have hB : (Balance.wf ⟨[("Assets:B", ⟨[("EUR", ⟨2, ⟨"EUR", .right⟩⟩)]⟩)]⟩) := by
    refine ⟨by simp, ?_⟩
    intro e he
    simp only [List.mem_singleton] at he
    subst he
    refine ⟨by simp, ?_, by simp⟩
    intro x hx
    simp only [List.mem_singleton] at hx
    subst hx
    norm_num
  constructor
  · intro k
    exact C8_merge_comm_assoc_on_quantities.1
      ⟨[("USD", ⟨1, ⟨"USD", .left⟩⟩)]⟩ ⟨[("USD", ⟨2, ⟨"USD", .right⟩⟩)]⟩
      (by simp [AccountBalance.nodupKeys])
      (by simp [AccountBalance.nodupKeys]) k
  · intro acct k
    exact C8_merge_comm_assoc_on_quantities.2.2.1 _ _ hA hB acct k

theorem passMatches_components (isAccount : String → Bool) (main : String)
    (p : PPosting) (a : Amount) (ha : p.amount = some a)
    (hm : passMatches isAccount main p = true) :
    isAccount p.account = true ∧ a.commodity.name ≠ main := by
  unfold passMatches at hm
  rw [ha] at hm
  simpa using hm

/-- When every matching posting's conversion succeeds, the pass loop
replaces each matching posting's amount in place and synthesizes exactly
two trading postings per matching posting, in posting order. -/
theorem foreignPassLoop_ok (isAccount : String → Bool) (main : String)
    (dp : ℕ) (prices : Prices) (date : Date) :
    ∀ ps : List PPosting,
    (∀ p ∈ ps, ∀ a, p.amount = some a → isAccount p.account = true →
      a.commodity.name ≠ main →
      ∃ v, prices.convert a.quantity a.commodity.name main date = .ok v) →
    foreignPassLoop isAccount main dp prices date ps =
      (ps.map (replacePosting isAccount main dp prices date),
        ps.flatMap (tradingPair isAccount main dp prices date), none) := by
  intro ps
  induction ps with
  | nil => intro _; rfl
  | cons p rest ih =>
    intro h
    have hrest := ih (fun q hq => h q (List.mem_cons_of_mem p hq))
    by_cases hm : passMatches isAccount main p
    · rcases ha : p.amount with _ | a
      · exfalso
        unfold passMatches at hm
        rw [ha] at hm
        simp at hm
      · obtain ⟨hacct, hname⟩ := passMatches_components isAccount main p a ha hm
        obtain ⟨v, hv⟩ := h p (List.mem_cons_self p rest) a ha hacct hname
        simp only [foreignPassLoop, if_pos hm, ha, hv, hrest]
        simp [replacePosting, tradingPair, hm, ha, convertedAmount, hv,
          Except.toOption]
    · simp only [foreignPassLoop, if_neg hm, hrest]
      simp [replacePosting, tradingPair, hm]

/-- When the pass loop fails, the returned postings are a mutated prefix
(matching postings already replaced in place) followed by the untouched
remainder; nothing has been appended. -/
theorem foreignPassLoop_error (isAccount : String → Bool) (main : String)
    (dp : ℕ) (prices : Prices) (date : Date) :
    ∀ (ps ps' news : List PPosting) (e : PricesError),
    foreignPassLoop isAccount main dp prices date ps = (ps', news, some e) →
    ∃ pre suf, ps = pre ++ suf ∧
      ps' = pre.map (replacePosting isAccount main dp prices date) ++ suf := by
  intro ps
  induction ps with
  | nil =>
    intro ps' news e h
    simp [foreignPassLoop] at h
  | cons p rest ih =>
    intro ps' news e h
    by_cases hm : passMatches isAccount main p
    · rcases ha : p.amount with _ | a
      · simp only [foreignPassLoop, if_pos hm, ha] at h
        rcases hsplit : foreignPassLoop isAccount main dp prices date rest
          with ⟨ps0, news0, err0⟩
        rw [hsplit] at h
        dsimp only at h
        have h1 := congrArg
          (fun t : List PPosting × List PPosting × Option PricesError => t.1) h
        have h3 := congrArg
          (fun t : List PPosting × List PPosting × Option PricesError => t.2.2) h
        dsimp only at h1 h3
        obtain ⟨pre0, suf0, hr, hp0⟩ := ih ps0 news0 e (by rw [hsplit, h3])
        refine ⟨p :: pre0, suf0, by rw [hr]; rfl, ?_⟩
        rw [← h1, hp0]
        simp [replacePosting, hm, ha]
      · rcases hc : prices.convert a.quantity a.commodity.name main date
          with e' | v
        · simp only [foreignPassLoop, if_pos hm, ha, hc] at h
          have h1 := congrArg
            (fun t : List PPosting × List PPosting × Option PricesError => t.1) h
          dsimp only at h1
          exact ⟨[], p :: rest, rfl, by rw [← h1]; rfl⟩
        · simp only [foreignPassLoop, if_pos hm, ha, hc] at h
          rcases hsplit : foreignPassLoop isAccount main dp prices date rest
            with ⟨ps0, news0, err0⟩
          rw [hsplit] at h
          dsimp only at h
          have h1 := congrArg
            (fun t : List PPosting × List PPosting × Option PricesError => t.1) h
          have h3 := congrArg
            (fun t : List PPosting × List PPosting × Option PricesError => t.2.2) h
          dsimp only at h1 h3
          obtain ⟨pre0, suf0, hr, hp0⟩ := ih ps0 news0 e (by rw [hsplit, h3])
          refine ⟨p :: pre0, suf0, by rw [hr]; rfl, ?_⟩
          rw [← h1, hp0]
          simp [replacePosting, hm, ha, convertedAmount, hc, Except.toOption]
    · simp only [foreignPassLoop, if_neg hm] at h
      rcases hsplit : foreignPassLoop isAccount main dp prices date rest
        with ⟨ps0, news0, err0⟩
      rw [hsplit] at h
      dsimp only at h
      have h1 := congrArg
        (fun t : List PPosting × List PPosting × Option PricesError => t.1) h
      have h3 := congrArg
        (fun t : List PPosting × List PPosting × Option PricesError => t.2.2) h
      dsimp only at h1 h3
      obtain ⟨pre0, suf0, hr, hp0⟩ := ih ps0 news0 e (by rw [hsplit, h3])
      refine ⟨p :: pre0, suf0, by rw [hr]; rfl, ?_⟩
      rw [← h1, hp0]
      simp [replacePosting, hm]

/-- C1: when every matching conversion succeeds, the income pass replaces
each matching posting's amount in place with the converted, rounded
main-commodity amount and appends exactly two `"Trading:Exchange"` postings
per matching posting (negated converted amount, then the original foreign
amount); on the 100 EUR example with rate 1.10 and precision 2 the income
posting becomes 110 USD and the trading account receives USD -110 and
EUR 100. -/
theorem C1_income_pass_rewrites_and_appends :
    (∀ (isIncome : String → Bool) (main : String) (dp : ℕ) (prices : Prices)
      (t : PTransaction),
      (∀ p ∈ t.postings, ∀ a, p.amount = some a → isIncome p.account = true →
        a.commodity.name ≠ main →
        ∃ v, prices.convert a.quantity a.commodity.name main t.date = .ok v) →
      handle_foreign_asset_income isIncome main dp prices t =
        ({ t with postings :=
            t.postings.map (replacePosting isIncome main dp prices t.date) ++
            t.postings.flatMap (tradingPair isIncome main dp prices t.date) },
          none)) ∧
    (handle_foreign_asset_income isIncomeEx "USD" 2 exIncomePrices exIncomeTxn =
      ({ exIncomeTxn with postings :=
          [⟨"Income:Salary", .real, some ⟨110, ⟨"USD", .right⟩⟩, none, none⟩,
           tradingPosting ⟨-110, ⟨"USD", .right⟩⟩,
           tradingPosting ⟨100, ⟨"EUR", .right⟩⟩] }, none)) ∧
    (((handle_foreign_asset_income isIncomeEx "USD" 2 exIncomePrices
        exIncomeTxn).1.postings.filter
          (fun p => decide (p.account = "Trading:Exchange"))).map
        PPosting.amount =
      [some ⟨-110, ⟨"USD", .right⟩⟩, some ⟨100, ⟨"EUR", .right⟩⟩]) := by
  have hgen : ∀ (isIncome : String → Bool) (main : String) (dp : ℕ)
      (prices : Prices) (t : PTransaction),
      (∀ p ∈ t.postings, ∀ a, p.amount = some a → isIncome p.account = true →
        a.commodity.name ≠ main →
        ∃ v, prices.convert a.quantity a.commodity.name main t.date = .ok v) →
      handle_foreign_asset_income isIncome main dp prices t =
        ({ t with postings :=
            t.postings.map (replacePosting isIncome main dp prices t.date) ++
            t.postings.flatMap (tradingPair isIncome main dp prices t.date) },
          none) := by
    intro isIncome main dp prices t h
    unfold handle_foreign_asset_income
    rw [foreignPassLoop_ok isIncome main dp prices t.date t.postings h]
  have hconv : exIncomePrices.convert 100 "EUR" "USD" ⟨2023, 1, 1⟩ =
      .ok (100 * (11/10)) := rfl
  have hround : Decimal.round_dp (100 * (11/10)) 2 = 110 := by
    norm_num [Decimal.round_dp, roundHalfAwayFromZero]
  have hconc : handle_foreign_asset_income isIncomeEx "USD" 2 exIncomePrices
      exIncomeTxn =
      ({ exIncomeTxn with postings :=
          [⟨"Income:Salary", .real, some ⟨110, ⟨"USD", .right⟩⟩, none, none⟩,
           tradingPosting ⟨-110, ⟨"USD", .right⟩⟩,
           tradingPosting ⟨100, ⟨"EUR", .right⟩⟩] }, none) := by
    rw [hgen isIncomeEx "USD" 2 exIncomePrices exIncomeTxn]
    · simp only [exIncomeTxn, List.map_cons, List.map_nil, List.flatMap_cons,
        List.flatMap_nil, List.append_nil, List.nil_append]
      simp [replacePosting, tradingPair, passMatches, isIncomeEx,
        convertedAmount, tradingPosting, hconv, hround, Except.toOption]
    · intro p hp a ha _ _
      simp only [exIncomeTxn, List.mem_singleton] at hp
      subst hp
      simp only at ha
      injection ha with ha
      subst ha
      exact ⟨100 * (11/10), rfl⟩
  refine ⟨hgen, hconc, ?_⟩
  rw [hconc]
  rfl

/-- Witness for C1's general part at the concrete EUR income example. -/
theorem C1_income_pass_rewrites_and_appends_witness :
    handle_foreign_asset_income isIncomeEx "USD" 2 exIncomePrices exIncomeTxn =
      ({ exIncomeTxn with postings :=
          exIncomeTxn.postings.map (replacePosting isIncomeEx "USD" 2
            exIncomePrices exIncomeTxn.date) ++
          exIncomeTxn.postings.flatMap (tradingPair isIncomeEx "USD" 2
            exIncomePrices exIncomeTxn.date) }, none) :=
  C1_income_pass_rewrites_and_appends.1 isIncomeEx "USD" 2 exIncomePrices
    exIncomeTxn
    (fun p hp a ha _ _ => by
      simp only [exIncomeTxn, List.mem_singleton] at hp
      subst hp
      simp only at ha
      injection ha with ha
      subst ha
      exact ⟨100 * (11/10), rfl⟩)

/-- C5 counterexample: the original claim fails in both directions.
On `exPartialTxn` the income pass errors on the GBP posting after having
already replaced the EUR posting's amount in place with 110 USD, with no
trading postings appended; and on `exExpenseTxn` the expense pass errors
after the income pass completed, so the erroring transaction ends with the
income pass's two synthesized `Trading:Exchange` postings appended.  Either
way the transaction is neither untouched nor rewritten in full while the
error propagates. -/
theorem C5_counterexample :
    (handle_foreign_asset_income isIncomeEx "USD" 2 exIncomePrices
        exPartialTxn).2 =
      some (.NoSuchCommoditiesPair (CommoditiesPair.new "GBP" "USD")) ∧
    (handle_foreign_asset_income isIncomeEx "USD" 2 exIncomePrices
        exPartialTxn).1.postings =
      [⟨"Income:Salary", .real, some ⟨110, ⟨"USD", .right⟩⟩, none, none⟩,
       ⟨"Income:Salary", .real, some ⟨50, ⟨"GBP", .right⟩⟩, none, none⟩] ∧
    ((handle_foreign_asset_income isIncomeEx "USD" 2 exIncomePrices
        exPartialTxn).1.postings.filter
          (fun p => decide (p.account = "Trading:Exchange"))) = [] ∧
    (handle_foreign_currencies (fun _ => false) isIncomeEx isExpenseEx
        "USD" 2 exIncomePrices [.transaction exExpenseTxn]).2 =
      some (.NoSuchCommoditiesPair (CommoditiesPair.new "GBP" "USD")) ∧
    (handle_foreign_currencies (fun _ => false) isIncomeEx isExpenseEx
        "USD" 2 exIncomePrices [.transaction exExpenseTxn]).1 =
      [.transaction ⟨⟨2023, 1, 1⟩,
        [⟨"Income:Salary", .real, some ⟨110, ⟨"USD", .right⟩⟩, none, none⟩,
         ⟨"Expenses:Food", .real, some ⟨30, ⟨"GBP", .right⟩⟩, none, none⟩,
         tradingPosting ⟨-110, ⟨"USD", .right⟩⟩,
         tradingPosting ⟨100, ⟨"EUR", .right⟩⟩]⟩] := by
  have hround : Decimal.round_dp (100 * (11/10)) 2 = 110 := by
    norm_num [Decimal.round_dp, roundHalfAwayFromZero]
  have h : handle_foreign_asset_income isIncomeEx "USD" 2 exIncomePrices
      exPartialTxn =
      (⟨⟨2023, 1, 1⟩,
        [⟨"Income:Salary", .real,
            some ⟨Decimal.round_dp (100 * (11/10)) 2, ⟨"USD", .right⟩⟩,
            none, none⟩,
         ⟨"Income:Salary", .real, some ⟨50, ⟨"GBP", .right⟩⟩, none, none⟩]⟩,
        some (.NoSuchCommoditiesPair (CommoditiesPair.new "GBP" "USD"))) := rfl
  have h2 : handle_foreign_currencies (fun _ => false) isIncomeEx isExpenseEx
      "USD" 2 exIncomePrices [.transaction exExpenseTxn] =
      ([.transaction ⟨⟨2023, 1, 1⟩,
        [⟨"Income:Salary", .real,
            some ⟨Decimal.round_dp (100 * (11/10)) 2, ⟨"USD", .right⟩⟩,
            none, none⟩,
         ⟨"Expenses:Food", .real, some ⟨30, ⟨"GBP", .right⟩⟩, none, none⟩,
         tradingPosting ⟨-(Decimal.round_dp (100 * (11/10)) 2),
            ⟨"USD", .right⟩⟩,
         tradingPosting ⟨100, ⟨"EUR", .right⟩⟩]⟩],
        some (.NoSuchCommoditiesPair (CommoditiesPair.new "GBP" "USD"))) := rfl
  rw [h, h2, hround]
  exact ⟨rfl, rfl, rfl, rfl, rfl⟩

/-- C5 amended: an FX conversion error inside the income or the expense
pass propagates to the caller immediately and unmodified, with later ledger
items untouched and earlier ones fully processed.  The erroring pass itself
appends nothing and leaves a mutated prefix (matching postings before the
failure keep their replaced amounts) followed by the untouched remainder —
but postings appended by earlier passes of the same transaction survive, so
the erroring transaction is not rewritten atomically: it can end with
replaced amounts and no offsetting postings (income-pass error), or with
the income pass's synthesized postings already appended (expense-pass
error). -/
theorem C5_error_propagation_partial_rewrite :
    (∀ (isIncome : String → Bool) (main : String) (dp : ℕ) (prices : Prices)
      (t t' : PTransaction) (e : PricesError),
      handle_foreign_asset_income isIncome main dp prices t = (t', some e) →
      t'.postings.length = t.postings.length ∧
      ∃ pre suf, t.postings = pre ++ suf ∧
        t'.postings =
          pre.map (replacePosting isIncome main dp prices t.date) ++ suf) ∧
    (∀ (isExpense : String → Bool) (main : String) (dp : ℕ) (prices : Prices)
      (t t' : PTransaction) (e : PricesError),
      handle_foreign_asset_expenses isExpense main dp prices t = (t', some e) →
      t'.postings.length = t.postings.length ∧
      ∃ pre suf, t.postings = pre ++ suf ∧
        t'.postings =
          pre.map (replacePosting isExpense main dp prices t.date) ++ suf) ∧
    (∀ (isAsset isIncome isExpense : String → Bool) (main : String) (dp : ℕ)
      (prices : Prices) (t t' : PTransaction) (e : PricesError)
      (rest : List LedgerItem),
      handle_foreign_asset_income isIncome main dp prices t = (t', some e) →
      handle_foreign_currencies isAsset isIncome isExpense main dp prices
        (.transaction t :: rest) = (.transaction t' :: rest, some e)) ∧
    (∀ (isAsset isIncome isExpense : String → Bool) (main : String) (dp : ℕ)
      (prices : Prices) (t t1 t3 : PTransaction) (e : PricesError)
      (rest : List LedgerItem),
      handle_foreign_asset_income isIncome main dp prices t = (t1, none) →
      handle_foreign_asset_expenses isExpense main dp prices
        (handle_asset_exchange isAsset t1) = (t3, some e) →
      handle_foreign_currencies isAsset isIncome isExpense main dp prices
        (.transaction t :: rest) = (.transaction t3 :: rest, some e)) ∧
    (∀ (isAsset isIncome isExpense : String → Bool) (main : String) (dp : ℕ)
      (prices : Prices) (t t1 t3 : PTransaction) (rest rest' : List LedgerItem)
      (err : Option PricesError),
      handle_foreign_asset_income isIncome main dp prices t = (t1, none) →
      handle_foreign_asset_expenses isExpense main dp prices
        (handle_asset_exchange isAsset t1) = (t3, none) →
      handle_foreign_currencies isAsset isIncome isExpense main dp prices
        rest = (rest', err) →
      handle_foreign_currencies isAsset isIncome isExpense main dp prices
        (.transaction t :: rest) = (.transaction t3 :: rest', err)) ∧
    (∀ (isAsset isIncome isExpense : String → Bool) (main : String) (dp : ℕ)
      (prices : Prices) (cp : CommodityPrice) (rest rest' : List LedgerItem)
      (err : Option PricesError),
      handle_foreign_currencies isAsset isIncome isExpense main dp prices
        rest = (rest', err) →
      handle_foreign_currencies isAsset isIncome isExpense main dp prices
        (.commodityPrice cp :: rest) = (.commodityPrice cp :: rest', err)) := by
  refine ⟨?_, ?_, ?_, ?_, ?_, ?_⟩
  · intro isIncome main dp prices t t' e h
    unfold handle_foreign_asset_income at h
    rcases hsplit : foreignPassLoop isIncome main dp prices t.date t.postings
      with ⟨ps0, news0, err0⟩
    rw [hsplit] at h
    cases err0 with
    | none =>
      exfalso
      dsimp only at h
      have h3 := congrArg (fun r : PTransaction × Option PricesError => r.2) h
      simp at h3
    | some e0 =>
      dsimp only at h
      have hps := congrArg
        (fun r : PTransaction × Option PricesError => r.1.postings) h
      have h3 := congrArg (fun r : PTransaction × Option PricesError => r.2) h
      dsimp only at hps h3
      injection h3 with h3
      obtain ⟨pre, suf, hsplit2, hps0⟩ :=
        foreignPassLoop_error isIncome main dp prices t.date t.postings ps0
          news0 e (by rw [hsplit, h3])
      refine ⟨?_, pre, suf, hsplit2, by rw [← hps, hps0]⟩
      rw [← hps, hps0, hsplit2]
      simp
  · intro isExpense main dp prices t t' e h
    unfold handle_foreign_asset_expenses at h
    rcases hsplit : foreignPassLoop isExpense main dp prices t.date t.postings
      with ⟨ps0, news0, err0⟩
    rw [hsplit] at h
    cases err0 with
    | none =>
      exfalso
      dsimp only at h
      have h3 := congrArg (fun r : PTransaction × Option PricesError => r.2) h
      simp at h3
    | some e0 =>
      dsimp only at h
      have hps := congrArg
        (fun r : PTransaction × Option PricesError => r.1.postings) h
      have h3 := congrArg (fun r : PTransaction × Option PricesError => r.2) h
      dsimp only at hps h3
      injection h3 with h3
      obtain ⟨pre, suf, hsplit2, hps0⟩ :=
        foreignPassLoop_error isExpense main dp prices t.date t.postings ps0
          news0 e (by rw [hsplit, h3])
      refine ⟨?_, pre, suf, hsplit2, by rw [← hps, hps0]⟩
      rw [← hps, hps0, hsplit2]
      simp
  · intro isAsset isIncome isExpense main dp prices t t' e rest h
    unfold handle_foreign_currencies
    rw [h]
  · intro isAsset isIncome isExpense main dp prices t t1 t3 e rest h1 h2
    unfold handle_foreign_currencies
    rw [h1]
    dsimp only
    rw [h2]
  · intro isAsset isIncome isExpense main dp prices t t1 t3 rest rest' err
      h1 h2 h3
    unfold handle_foreign_currencies
    rw [h1]
    dsimp only
    rw [h2]
    dsimp only
    rw [h3]
  · intro isAsset isIncome isExpense main dp prices cp rest rest' err h
    unfold handle_foreign_currencies
    rw [h]

/-- Witness for C5's amended theorem: every part applied at a concrete
input — the income-pass error on `exPartialTxn`, the expense-pass error
after a completed income pass on `exExpenseTxn`, a fully successful
transaction, and a non-transaction item. -/
theorem C5_error_propagation_partial_rewrite_witness :
    (handle_foreign_asset_income isIncomeEx "USD" 2 exIncomePrices
        exPartialTxn).1.postings.length = exPartialTxn.postings.length ∧
    (handle_foreign_asset_expenses isExpenseEx "USD" 2 exIncomePrices
        (handle_foreign_asset_income isIncomeEx "USD" 2 exIncomePrices
          exExpenseTxn).1).1.postings.length =
      (handle_foreign_asset_income isIncomeEx "USD" 2 exIncomePrices
        exExpenseTxn).1.postings.length ∧
    handle_foreign_currencies (fun _ => false) isIncomeEx (fun _ => false)
        "USD" 2 exIncomePrices [.transaction exPartialTxn] =
      ([.transaction (handle_foreign_asset_income isIncomeEx "USD" 2
          exIncomePrices exPartialTxn).1],
        some (.NoSuchCommoditiesPair (CommoditiesPair.new "GBP" "USD"))) ∧
    handle_foreign_currencies (fun _ => false) isIncomeEx isExpenseEx
        "USD" 2 exIncomePrices [.transaction exExpenseTxn] =
      ([.transaction (handle_foreign_asset_expenses isExpenseEx "USD" 2
          exIncomePrices (handle_asset_exchange (fun _ => false)
            (handle_foreign_asset_income isIncomeEx "USD" 2 exIncomePrices
              exExpenseTxn).1)).1],
        some (.NoSuchCommoditiesPair (CommoditiesPair.new "GBP" "USD"))) ∧
    handle_foreign_currencies (fun _ => false) isIncomeEx (fun _ => false)
        "USD" 2 exIncomePrices [.transaction exIncomeTxn] =
      ([.transaction (handle_foreign_asset_expenses (fun _ => false) "USD" 2
          exIncomePrices (handle_asset_exchange (fun _ => false)
            (handle_foreign_asset_income isIncomeEx "USD" 2 exIncomePrices
              exIncomeTxn).1)).1], none) ∧
    handle_foreign_currencies (fun _ => false) isIncomeEx (fun _ => false)
        "USD" 2 exIncomePrices
        [.commodityPrice ⟨⟨2023, 1, 1⟩, "EUR", ⟨11/10, ⟨"USD", .right⟩⟩⟩] =
      ([.commodityPrice ⟨⟨2023, 1, 1⟩, "EUR", ⟨11/10, ⟨"USD", .right⟩⟩⟩],
        none) :=
  ⟨(C5_error_propagation_partial_rewrite.1 isIncomeEx "USD" 2 exIncomePrices
      exPartialTxn
      (handle_foreign_asset_income isIncomeEx "USD" 2 exIncomePrices
        exPartialTxn).1
      (.NoSuchCommoditiesPair (CommoditiesPair.new "GBP" "USD")) rfl).1,
    (C5_error_propagation_partial_rewrite.2.1 isExpenseEx "USD" 2
      exIncomePrices
      (handle_foreign_asset_income isIncomeEx "USD" 2 exIncomePrices
        exExpenseTxn).1
      (handle_foreign_asset_expenses isExpenseEx "USD" 2 exIncomePrices
        (handle_foreign_asset_income isIncomeEx "USD" 2 exIncomePrices
          exExpenseTxn).1).1
      (.NoSuchCommoditiesPair (CommoditiesPair.new "GBP" "USD")) rfl).1,
    C5_error_propagation_partial_rewrite.2.2.1 (fun _ => false) isIncomeEx
      (fun _ => false) "USD" 2 exIncomePrices exPartialTxn
      (handle_foreign_asset_income isIncomeEx "USD" 2 exIncomePrices
        exPartialTxn).1
      (.NoSuchCommoditiesPair (CommoditiesPair.new "GBP" "USD")) [] rfl,
    C5_error_propagation_partial_rewrite.2.2.2.1 (fun _ => false) isIncomeEx
      isExpenseEx "USD" 2 exIncomePrices exExpenseTxn
      (handle_foreign_asset_income isIncomeEx "USD" 2 exIncomePrices
        exExpenseTxn).1
      (handle_foreign_asset_expenses isExpenseEx "USD" 2 exIncomePrices
        (handle_asset_exchange (fun _ => false)
          (handle_foreign_asset_income isIncomeEx "USD" 2 exIncomePrices
            exExpenseTxn).1)).1
      (.NoSuchCommoditiesPair (CommoditiesPair.new "GBP" "USD")) [] rfl rfl,
    C5_error_propagation_partial_rewrite.2.2.2.2.1 (fun _ => false) isIncomeEx
      (fun _ => false) "USD" 2 exIncomePrices exIncomeTxn
      (handle_foreign_asset_income isIncomeEx "USD" 2 exIncomePrices
        exIncomeTxn).1
      (handle_foreign_asset_expenses (fun _ => false) "USD" 2 exIncomePrices
        (handle_asset_exchange (fun _ => false)
          (handle_foreign_asset_income isIncomeEx "USD" 2 exIncomePrices
            exIncomeTxn).1)).1
      [] [] none rfl rfl rfl,
    C5_error_propagation_partial_rewrite.2.2.2.2.2 (fun _ => false) isIncomeEx
      (fun _ => false) "USD" 2 exIncomePrices
      ⟨⟨2023, 1, 1⟩, "EUR", ⟨11/10, ⟨"USD", .right⟩⟩⟩ [] [] none rfl⟩

theorem valueLoop_characterisation (commodity_name : String) (date : Date)
    (prices : Prices) : ∀ (l : List Amount) (acc : Decimal),
    valueLoop commodity_name date prices l acc =
      match firstConvErr commodity_name date prices l with
      | some e => .error e
      | none => .ok (convertedSum commodity_name date prices l acc) := by
  intro l
  induction l with
  | nil => intro acc; rfl
  | cons a rest ih =>
    intro acc
    by_cases hn : a.commodity.name = commodity_name
    · simp only [valueLoop, if_pos hn, firstConvErr, convertedSum,
        List.foldl_cons, ih]
    · rcases hc : prices.convert a.quantity a.commodity.name commodity_name
        date with e | v
      · simp only [valueLoop, if_neg hn, hc, firstConvErr]
      · simp only [valueLoop, if_neg hn, hc, firstConvErr, convertedSum,
          List.foldl_cons, ih]
        simp only [if_neg hn, hc, Except.toOption, Option.getD]

/-- C9 counterexample: valuing an `AccountBalance` holding 5 EUR in USD
against an empty rate store makes `value_in_commodity` return
`NoSuchCommoditiesPair`, but `value_in_commodity_rounded` — also a
dependent valuation operation — `panic!`s (modelled `none`) instead of
returning that error to its caller. -/
theorem C9_counterexample :
    AccountBalance.value_in_commodity ⟨[("EUR", ⟨5, ⟨"EUR", .right⟩⟩)]⟩
        "USD" ⟨2023, 1, 1⟩ Prices.empty =
      .error (.NoSuchCommoditiesPair (CommoditiesPair.new "EUR" "USD")) ∧
    AccountBalance.value_in_commodity_rounded ⟨[("EUR", ⟨5, ⟨"EUR", .right⟩⟩)]⟩
        "USD" 2 ⟨2023, 1, 1⟩ Prices.empty = none :=
  ⟨rfl, rfl⟩

/-- C9 amended: `value_in_commodity` returns the first FX error met in
iteration order, unmodified, and on success returns the exact converted
sum (no zero or unconverted substitute); `value_in_commodity_rounded`
rounds the successful value but panics on error instead of returning it. -/
theorem C9_value_error_propagation :
    (∀ (ab : AccountBalance) (cn : String) (date : Date) (prices : Prices),
      ab.value_in_commodity cn date prices =
        match firstConvErr cn date prices (ab.amounts.map Prod.snd) with
        | some e => .error e
        | none => .ok (convertedSum cn date prices
            (ab.amounts.map Prod.snd) 0)) ∧
    (∀ (ab : AccountBalance) (cn : String) (dp : ℕ) (date : Date)
      (prices : Prices) (e : PricesError),
      ab.value_in_commodity cn date prices = .error e →
      ab.value_in_commodity_rounded cn dp date prices = none) ∧
    (∀ (ab : AccountBalance) (cn : String) (dp : ℕ) (date : Date)
      (prices : Prices) (v : Decimal),
      ab.value_in_commodity cn date prices = .ok v →
      ab.value_in_commodity_rounded cn dp date prices =
        some (Decimal.round_dp v dp)) := by
  refine ⟨?_, ?_, ?_⟩
  · intro ab cn date prices
    exact valueLoop_characterisation cn date prices (ab.amounts.map Prod.snd) 0
  · intro ab cn dp date prices e h
    unfold AccountBalance.value_in_commodity_rounded
    rw [h]
  · intro ab cn dp date prices v h
    unfold AccountBalance.value_in_commodity_rounded
    rw [h]

/-- Witness for C9's amended theorem at concrete inputs. -/
theorem C9_value_error_propagation_witness :
    AccountBalance.value_in_commodity_rounded ⟨[("EUR", ⟨5, ⟨"EUR", .right⟩⟩)]⟩
        "USD" 2 ⟨2023, 1, 1⟩ Prices.empty = none ∧
    AccountBalance.value_in_commodity_rounded ⟨[("USD", ⟨7, ⟨"USD", .right⟩⟩)]⟩
        "USD" 2 ⟨2023, 1, 1⟩ Prices.empty =
      some (Decimal.round_dp (0 + 7) 2) :=
  ⟨C9_value_error_propagation.2.1 ⟨[("EUR", ⟨5, ⟨"EUR", .right⟩⟩)]⟩ "USD" 2
      ⟨2023, 1, 1⟩ Prices.empty
      (.NoSuchCommoditiesPair (CommoditiesPair.new "EUR" "USD")) rfl,
    C9_value_error_propagation.2.2 ⟨[("USD", ⟨7, ⟨"USD", .right⟩⟩)]⟩ "USD" 2
      ⟨2023, 1, 1⟩ Prices.empty (0 + 7) rfl⟩

theorem monthlyLoop_open_bucket : ∀ (n : ℕ) (txns : List STransaction),
    txns.length ≤ n →
    ∀ (y m : ℤ) (b : MonthlyBalance) (monthly total : Balance)
      (acc : List MonthlyBalance), b.year = y → b.month = m →
    monthlyLoop txns y m (some b) monthly total acc =
      acc ++ ({ b with
          monthly_change := (txns.takeWhile (sameMonth y m)).foldl
            Balance.update_with_transaction monthly
          total := (txns.takeWhile (sameMonth y m)).foldl
            Balance.update_with_transaction total } ::
        bucketsOfRuns (groupRuns (txns.dropWhile (sameMonth y m)))
          ((txns.takeWhile (sameMonth y m)).foldl
            Balance.update_with_transaction total)) := by
  intro n
  induction n with
  | zero =>
    intro txns hlen y m b monthly total acc hy hm
    have : txns = [] := List.eq_nil_of_length_eq_zero (Nat.le_zero.mp hlen)
    subst this
    subst hy
    subst hm
    simp [monthlyLoop, groupRuns, bucketsOfRuns]
  | succ n ih =>
    intro txns hlen y m b monthly total acc hy hm
    cases txns with
    | nil =>
      subst hy
      subst hm
      simp [monthlyLoop, groupRuns, bucketsOfRuns]
    | cons t rest =>
      have hlen' : rest.length ≤ n := by
        simp only [List.length_cons] at hlen
        omega
      by_cases h1 : t.date.year = y ∧ t.date.month = m
      · have hsm : sameMonth y m t = true := by
          simp [sameMonth, h1.1, h1.2]
        have hcond : ¬ (t.date.year ≠ y ∨ t.date.month ≠ m) := by
          push_neg
          exact h1
        simp only [monthlyLoop, if_neg hcond]
        rw [ih rest hlen' y m b
          (Balance.update_with_transaction monthly t)
          (Balance.update_with_transaction total t) acc hy hm]
        rw [List.takeWhile_cons_of_pos hsm, List.dropWhile_cons_of_pos hsm]
        simp only [List.foldl_cons]
      · have hsm : sameMonth y m t = false := by
          rcases not_and_or.mp h1 with h | h <;> simp [sameMonth, h]
        have hcond : t.date.year ≠ y ∨ t.date.month ≠ m := not_and_or.mp h1
        simp only [monthlyLoop, if_pos hcond]
        have hrw := ih rest hlen' t.date.year t.date.month
          (MonthlyBalance.new t.date.year t.date.month)
          (Balance.update_with_transaction Balance.new t)
          (Balance.update_with_transaction total t)
          (acc ++ [⟨b.year, b.month, monthly, total⟩])
          rfl rfl
        rw [hrw]
        rw [List.takeWhile_cons_of_neg (by simp [hsm]),
          List.dropWhile_cons_of_neg (by simp [hsm])]
        simp only [List.foldl_nil, List.append_assoc, List.singleton_append]
        congr 1
        simp only [groupRuns]
        simp only [bucketsOfRuns, List.foldl_cons, List.head?_cons,
          Option.map_some, Option.getD_some]
        rfl

/-- The monthly report equals one bucket per maximal contiguous
(year, month) run, provided every month field is a real month (chrono
guarantees `1 ≤ month`, so the `(0, 0)` sentinel never matches). -/
theorem from_transactions_eq_runs (txns : List STransaction)
    (h : ∀ t ∈ txns, 1 ≤ t.date.month) :
    MonthlyReport.from_transactions txns =
      ⟨bucketsOfRuns (groupRuns txns) Balance.new⟩ := by
  unfold MonthlyReport.from_transactions
  cases txns with
  | nil => simp [monthlyLoop, groupRuns, bucketsOfRuns]
  | cons t rest =>
    have hm : 1 ≤ t.date.month := h t (List.mem_cons_self t rest)
    have hcond : t.date.year ≠ 0 ∨ t.date.month ≠ 0 := Or.inr (by omega)
    simp only [monthlyLoop, if_pos hcond]
    rw [monthlyLoop_open_bucket rest.length rest le_rfl t.date.year
      t.date.month (MonthlyBalance.new t.date.year t.date.month)
      (Balance.update_with_transaction Balance.new t)
      (Balance.update_with_transaction Balance.new t) [] rfl rfl]
    simp only [List.nil_append, groupRuns]
    simp only [bucketsOfRuns, List.foldl_cons, List.head?_cons,
      Option.map_some, Option.getD_some]
    rfl

/-- C6: the monthly report has exactly one bucket per maximal contiguous
run of equal (year, month) — a later transaction matching an earlier,
already-sealed bucket opens a new bucket — each bucket's delta being the
merge of exactly that run and its total the merge of everything up to and
including the run; transactions dated 2023-01-05, 2023-01-20, 2023-02-01
yield exactly the buckets (2023,1), (2023,2), with the stated delta and
total, and the unsorted order Jan/Feb/Jan yields three buckets. -/
theorem C6_monthly_bucketing :
    (∀ txns : List STransaction, (∀ t ∈ txns, 1 ≤ t.date.month) →
      MonthlyReport.from_transactions txns =
        ⟨bucketsOfRuns (groupRuns txns) Balance.new⟩) ∧
    ((MonthlyReport.from_transactions [tJan5, tJan20, tFeb1]).monthly_balances.map
        (fun mb => (mb.year, mb.month)) = [(2023, 1), (2023, 2)]) ∧
    ((MonthlyReport.from_transactions [tJan5, tJan20, tFeb1]).monthly_balances.map
        MonthlyBalance.monthly_change =
      [[tJan5, tJan20].foldl Balance.update_with_transaction Balance.new,
       [tFeb1].foldl Balance.update_with_transaction Balance.new]) ∧
    ((MonthlyReport.from_transactions [tJan5, tJan20, tFeb1]).monthly_balances.map
        MonthlyBalance.total =
      [[tJan5, tJan20].foldl Balance.update_with_transaction Balance.new,
       [tJan5, tJan20, tFeb1].foldl Balance.update_with_transaction
         Balance.new]) ∧
    ((MonthlyReport.from_transactions [tJan5, tFeb1, tJan20]).monthly_balances.map
        (fun mb => (mb.year, mb.month)) = [(2023, 1), (2023, 2), (2023, 1)]) := by
  have hsorted : MonthlyReport.from_transactions [tJan5, tJan20, tFeb1] =
      ⟨bucketsOfRuns (groupRuns [tJan5, tJan20, tFeb1]) Balance.new⟩ :=
    from_transactions_eq_runs _ (by decide)
  have hruns : groupRuns [tJan5, tJan20, tFeb1] = [[tJan5, tJan20], [tFeb1]] := by
    simp [groupRuns, sameMonth, tJan5, tJan20, tFeb1, List.takeWhile,
      List.dropWhile]
  have hunsorted : MonthlyReport.from_transactions [tJan5, tFeb1, tJan20] =
      ⟨bucketsOfRuns (groupRuns [tJan5, tFeb1, tJan20]) Balance.new⟩ :=
    from_transactions_eq_runs _ (by decide)
  have hruns2 : groupRuns [tJan5, tFeb1, tJan20] = [[tJan5], [tFeb1], [tJan20]] := by
    simp [groupRuns, sameMonth, tJan5, tJan20, tFeb1, List.takeWhile,
      List.dropWhile]
  refine ⟨from_transactions_eq_runs, ?_, ?_, ?_, ?_⟩
  · rw [hsorted, hruns]
    rfl
  · rw [hsorted, hruns]
    rfl
  · rw [hsorted, hruns]
    rfl
  · rw [hunsorted, hruns2]
    rfl

/-- Witness for C6's general part at the three-transaction example. -/
theorem C6_monthly_bucketing_witness :
    MonthlyReport.from_transactions [tJan5, tJan20, tFeb1] =
      ⟨bucketsOfRuns (groupRuns [tJan5, tJan20, tFeb1]) Balance.new⟩ :=
  C6_monthly_bucketing.1 [tJan5, tJan20, tFeb1] (by decide)
